import Mathlib

/-!
# Verification of the iridium-oxide MCTS core

This file is a shallow embedding, in Lean 4, of the core of the
iridium-oxide Monte Carlo Tree Search engine (`src/mcts.rs`,
`src/treenode.rs`, `src/searchtree.rs`, `src/ucb.rs`, `src/uct.rs`,
`src/constants.rs`), together with theorems settling the behavioural
claims about that core.

Modelling conventions:
* Rust machine integers (`u32`, `usize`, `i8`, `i32`) are modelled as
  `Nat`/`Int`; the visit and rollout counters never approach `2^32` in any
  statement below, so wraparound is not modelled.
* `f32`/`f64` arithmetic is modelled exactly over `ℚ` for the engine's
  value accounting (all quantities there are dyadic rationals), and over
  `ℝ` for the quality-scaling formula, which involves `exp`.  The
  transcendental float primitives used by the selectors
  (`fastapprox::faster::ln`, `f32::sqrt`, `f64::ln`, `f64::sqrt`, and the
  float `exp` inside the search loop) are external library calls, so they
  are abstracted as parameters (`Prims`), exactly like the `Game` trait
  the engine consumes.
* Rust panics (`panic!`-free spelling: `assert`, `expect`, `unwrap`,
  indexing out of bounds, empty random ranges) are modelled as
  `Except.error`; a search "completes" when the embedding returns
  `Except.ok`.
* The two randomness sources of the code, the engine-owned
  `fastrand::Rng` and the thread-local `rand::thread_rng`, are modelled
  as explicit draw streams consumed left to right.
-/

deriving instance DecidableEq for Except

namespace IridiumOxide

/-! ## Constants (src/constants.rs) -/

/-- The constant `WIN_SCORE: i32 = 10` from `src/constants.rs` line 1. -/
def WIN_SCORE : ℚ := 10

/-- The constant `N_INF: i32 = -INF = -(i32::MAX)` from `src/constants.rs`
lines 8-9.  (The code stores `N_INF as f32` into a node value; the f32
cast rounds `-2147483647` to `-2147483648.0`, still the same "very
negative sentinel".  We keep the `i32` value.) -/
def N_INF : ℚ := -2147483647

/-- The constant `EXP_FACTOR` consumed by `src/uct.rs` (the snapshot's
`src/constants.rs` spells it `EXPLORATION_FACTOR: f64 = 5.0 * WIN_SCORE`,
that is `50`). -/
def EXP_FACTOR : ℚ := 5 * WIN_SCORE

/-- The root of the arena is index `0` (`ROOT_IDX` in `src/constants.rs`). -/
def ROOT_IDX : ℕ := 0

/-! ## Rust string primitives used by `RolloutPolicy::from_str`

Rust strings are modelled as `List Char`.  `splitOnce` is
`str::split_once`, `parseUsize` is `str::parse::<usize>`. -/

/-- Model of Rust `str::split_once(c)`: splits at the first occurrence of
`c`, returning the parts before and after it, or `none` if `c` does not
occur. -/
def splitOnce (c : Char) : List Char → Option (List Char × List Char)
  | [] => none
  | x :: xs =>
    if x = c then some ([], xs)
    else
      match splitOnce c xs with
      | none => none
      | some (a, b) => some (x :: a, b)

theorem splitOnce_length {c : Char} :
    ∀ {s a b : List Char}, splitOnce c s = some (a, b) →
      a.length + 1 + b.length = s.length := by
  intro s
  induction s with
  | nil => intro a b h; simp [splitOnce] at h
  | cons x xs ih =>
    intro a b h
    by_cases hx : x = c
    · simp [splitOnce, hx] at h
      obtain ⟨ha, hb⟩ := h
      subst ha hb
      simp [Nat.add_comm]
    · simp only [splitOnce, if_neg hx] at h
      cases hsp : splitOnce c xs with
      | none => rw [hsp] at h; simp at h
      | some ab =>
        obtain ⟨a', b'⟩ := ab
        rw [hsp] at h
        simp at h
        obtain ⟨ha, hb⟩ := h
        have := ih hsp
        subst ha hb
        simp at this ⊢
        omega

/-- Accumulate a decimal digit string; `none` on a non-digit or on the
empty string. -/
def parseDigits : List Char → Option ℕ
  | [] => none
  | [c] => if c.isDigit then some (c.toNat - 48) else none
  | c :: rest =>
    if c.isDigit then
      match parseDigits rest with
      | none => none
      | some v => some ((c.toNat - 48) * 10 ^ rest.length + v)
    else none

/-- Model of Rust `str::parse::<usize>()`: an optional leading `+`
followed by at least one decimal digit, with the value required to fit in
64 bits (Rust reports overflow as a parse error). -/
def parseUsize (s : List Char) : Option ℕ :=
  let digits := match s with
    | '+' :: rest => rest
    | _ => s
  match parseDigits digits with
  | none => none
  | some v => if v < 2 ^ 64 then some v else none

/-! ## RolloutPolicy and its parser (src/mcts.rs lines 29-113) -/

/-- The rollout-policy configuration variants (`RolloutPolicy` in
`src/mcts.rs`). -/
inductive RolloutPolicy where
  | Random : RolloutPolicy
  | Decisive : RolloutPolicy
  | RandomQualityScaled : RolloutPolicy
  | DecisiveQualityScaled : RolloutPolicy
  | RandomCutoff (moves : ℕ) : RolloutPolicy
  | DecisiveCutoff (moves : ℕ) : RolloutPolicy
  | MetaAggregated (policy : RolloutPolicy) (rollouts : ℕ) : RolloutPolicy
deriving DecidableEq, Repr

/-- Abstract parse errors; the Rust code carries formatted message
strings, which the claims never inspect beyond `Err`-ness. -/
inductive ParseErr where
  | noDotSep : ParseErr
  | badNumber : ParseErr
  | badInner : ParseErr
  | unknown : ParseErr
deriving DecidableEq, Repr

/-- Shorthand turning a string literal into its character list. -/
def strL (s : String) : List Char := s.data

/-- Model of Rust `str::starts_with(pat)`: `rsStartsWith s pat` is true
when `pat` is an initial segment of `s`. -/
def rsStartsWith : List Char → List Char → Bool
  | _, [] => true
  | [], _ :: _ => false
  | a :: as, b :: bs => a = b && rsStartsWith as bs

/-- Model of `impl FromStr for RolloutPolicy` (`src/mcts.rs` lines
44-113).  The match arms are translated in source order: the four literal
arms, then the three guarded `starts_with` arms, then the catch-all
error.  The `meta_aggregated` arm parses the segment between the first
and second dot recursively, then the remainder after the second dot as a
count. -/
def rolloutPolicyFromStr (s : List Char) : Except ParseErr RolloutPolicy :=
  if s = strL "random" then .ok .Random
  else if s = strL "decisive" then .ok .Decisive
  else if s = strL "random_quality_scaled" then .ok .RandomQualityScaled
  else if s = strL "decisive_quality_scaled" then .ok .DecisiveQualityScaled
  else if rsStartsWith s (strL "random_cutoff") then
    match splitOnce '.' s with
    | none => .error .noDotSep
    | some (_, rest) =>
      match parseUsize rest with
      | none => .error .badNumber
      | some moves => .ok (.RandomCutoff moves)
  else if rsStartsWith s (strL "decisive_cutoff") then
    match splitOnce '.' s with
    | none => .error .noDotSep
    | some (_, rest) =>
      match parseUsize rest with
      | none => .error .badNumber
      | some moves => .ok (.DecisiveCutoff moves)
  else if rsStartsWith s (strL "meta_aggregated") then
    match hsp : splitOnce '.' s with
    | none => .error .noDotSep
    | some (_, rest) =>
      match hsp2 : splitOnce '.' rest with
      | none => .error .noDotSep
      | some (policyStr, rollsStr) =>
        match rolloutPolicyFromStr policyStr with
        | .error _ => .error .badInner
        | .ok policy =>
          match parseUsize rollsStr with
          | none => .error .badNumber
          | some rollouts => .ok (.MetaAggregated policy rollouts)
  else .error .unknown
termination_by s.length
decreasing_by
  have h1 := splitOnce_length hsp
  have h2 := splitOnce_length hsp2
  omega


theorem splitOnce_eq_none {c : Char} {s : List Char} (h : c ∉ s) :
    splitOnce c s = none := by
  induction s with
  | nil => rfl
  | cons x xs ih =>
    simp at h
    simp [splitOnce, Ne.symm h.1, ih h.2]

theorem splitOnce_append {c : Char} {a : List Char} (b : List Char) (h : c ∉ a) :
    splitOnce c (a ++ c :: b) = some (a, b) := by
  induction a with
  | nil => simp [splitOnce]
  | cons x xs ih =>
    simp at h
    simp [splitOnce, Ne.symm h.1, ih h.2]

theorem rsStartsWith_append_self (a b : List Char) : rsStartsWith (a ++ b) a = true := by
  induction a with
  | nil => cases b <;> rfl
  | cons x xs ih => simp [rsStartsWith, ih]

/-- The parse error produced for a dot-free string that is not one of the
four base variant names. -/
def dotfreeErr (inner : List Char) : ParseErr :=
  if rsStartsWith inner (strL "random_cutoff") = true
      ∨ rsStartsWith inner (strL "decisive_cutoff") = true
      ∨ rsStartsWith inner (strL "meta_aggregated") = true then .noDotSep
  else .unknown

/-- The four base rollout-policy variants, keyed by their configuration
names; `none` for every other string. -/
def baseVariant (s : List Char) : Option RolloutPolicy :=
  if s = strL "random" then some .Random
  else if s = strL "decisive" then some .Decisive
  else if s = strL "random_quality_scaled" then some .RandomQualityScaled
  else if s = strL "decisive_quality_scaled" then some .DecisiveQualityScaled
  else none

theorem fromStr_dotfree {inner : List Char} (h : ('.' : Char) ∉ inner) :
    rolloutPolicyFromStr inner =
      (match baseVariant inner with
       | some b => .ok b
       | none => .error (dotfreeErr inner)) := by
  rw [rolloutPolicyFromStr, baseVariant, dotfreeErr]
  split_ifs <;>
    first
      | rfl
      | (rw [splitOnce_eq_none h]; rfl)
      | (split
         · rfl
         · rename_i heq
           rw [splitOnce_eq_none h] at heq
           cases heq)
      | simp_all

theorem fromStr_meta (inner n : List Char) (h : ('.' : Char) ∉ inner) :
    rolloutPolicyFromStr (strL "meta_aggregated." ++ (inner ++ '.' :: n)) =
      (match rolloutPolicyFromStr inner with
       | .error _ => .error .badInner
       | .ok p =>
         match parseUsize n with
         | none => .error .badNumber
         | some v => .ok (.MetaAggregated p v)) := by
  have hform : strL "meta_aggregated." ++ (inner ++ '.' :: n) =
      strL "meta_aggregated" ++ '.' :: (inner ++ '.' :: n) := rfl
  have hsplit1 : splitOnce '.' (strL "meta_aggregated." ++ (inner ++ '.' :: n)) =
      some (strL "meta_aggregated", inner ++ '.' :: n) := by
    rw [hform, splitOnce_append _ (by decide)]
  have hsplit2 : splitOnce '.' (inner ++ '.' :: n) = some (inner, n) :=
    splitOnce_append _ h
  rw [rolloutPolicyFromStr]
  rw [if_neg (by simp [strL]), if_neg (by simp [strL]), if_neg (by simp [strL]),
      if_neg (by simp [strL]), if_neg (by simp [strL, rsStartsWith]),
      if_neg (by simp [strL, rsStartsWith]),
      if_pos (by rw [hform]; exact rsStartsWith_append_self _ _)]
  split
  · next heq => rw [hsplit1] at heq; cases heq
  · next pre rest heq =>
    rw [hsplit1] at heq
    cases heq
    split
    · next heq2 => rw [hsplit2] at heq2; cases heq2
    · next policyStr rollsStr heq2 =>
      rw [hsplit2] at heq2
      cases heq2
      rfl


theorem fromStr_ok_of_base {inner : List Char} {b : RolloutPolicy}
    (hb : baseVariant inner = some b) : rolloutPolicyFromStr inner = .ok b := by
  rw [baseVariant] at hb
  split_ifs at hb <;> simp at hb <;> subst hb <;> rename_i h1 <;> (try subst h1) <;>
    simp [rolloutPolicyFromStr, strL]

theorem fromStr_err_of_not_base {inner : List Char} (h : ('.' : Char) ∉ inner)
    (hb : baseVariant inner = none) :
    ∃ e, rolloutPolicyFromStr inner = .error e := by
  exact ⟨dotfreeErr inner, by rw [fromStr_dotfree h, hb]⟩

example : rolloutPolicyFromStr (strL "meta_aggregated.random_cutoff.10.3") = .error .badInner := by
  simp [rolloutPolicyFromStr, strL, rsStartsWith, splitOnce, parseUsize, parseDigits, baseVariant]

/-- C9: parsing the rollout-policy string `meta_aggregated.<inner>.<n>`
succeeds exactly when `<inner>` is one of the four base variants
(`random`, `decisive`, `random_quality_scaled`,
`decisive_quality_scaled`) and `<n>` parses as a non-negative count, in
which case the result is `MetaAggregated` of that base variant and count;
a cutoff or nested meta_aggregated inner policy is rejected with a
configuration error by the parser itself (the last two conjuncts show the
two rejections concretely), not at rollout time. -/
theorem C9_meta_aggregated_parse :
    (∀ inner n : List Char, ('.' : Char) ∉ inner →
      ((∃ p, rolloutPolicyFromStr (strL "meta_aggregated." ++ (inner ++ '.' :: n)) =
          .ok p) ↔
        ((baseVariant inner).isSome ∧ (parseUsize n).isSome)))
    ∧ (∀ (inner n : List Char) (b : RolloutPolicy) (v : ℕ), ('.' : Char) ∉ inner →
        baseVariant inner = some b → parseUsize n = some v →
        rolloutPolicyFromStr (strL "meta_aggregated." ++ (inner ++ '.' :: n)) =
          .ok (.MetaAggregated b v))
    ∧ rolloutPolicyFromStr (strL "meta_aggregated.random_cutoff.10.3") = .error .badInner
    ∧ rolloutPolicyFromStr (strL "meta_aggregated.meta_aggregated.random.3.5") =
        .error .badInner := by
  have hshape : ∀ (inner n : List Char) (b : RolloutPolicy) (v : ℕ), ('.' : Char) ∉ inner →
      baseVariant inner = some b → parseUsize n = some v →
      rolloutPolicyFromStr (strL "meta_aggregated." ++ (inner ++ '.' :: n)) =
        .ok (.MetaAggregated b v) := by
    intro inner n b v h hb hv
    rw [fromStr_meta inner n h, fromStr_ok_of_base hb]
    simp [hv]
  refine ⟨?_, hshape, ?_, ?_⟩
  · intro inner n h
    constructor
    · rintro ⟨p, hp⟩
      rw [fromStr_meta inner n h] at hp
      cases hb : baseVariant inner with
      | none =>
        obtain ⟨e, he⟩ := fromStr_err_of_not_base h hb
        rw [he] at hp
        cases hp
      | some b =>
        rw [fromStr_ok_of_base hb] at hp
        cases hn : parseUsize n with
        | none => rw [hn] at hp; cases hp
        | some v => simp [hb, hn]
    · rintro ⟨hb, hn⟩
      obtain ⟨b, hb⟩ := Option.isSome_iff_exists.mp hb
      obtain ⟨v, hn⟩ := Option.isSome_iff_exists.mp hn
      exact ⟨_, hshape inner n b v h hb hn⟩
  · simp [rolloutPolicyFromStr, strL, rsStartsWith, splitOnce, parseUsize, parseDigits,
      baseVariant]
  · simp [rolloutPolicyFromStr, strL, rsStartsWith, splitOnce, parseUsize, parseDigits,
      baseVariant]

/-- Witness for C9: the theorem applied at `inner = "decisive"`,
`n = "10"`, with every hypothesis discharged concretely. -/
theorem C9_meta_aggregated_parse_witness :
    (('.' : Char) ∉ strL "decisive")
    ∧ rolloutPolicyFromStr (strL "meta_aggregated." ++ (strL "decisive" ++ '.' :: strL "10")) =
        .ok (.MetaAggregated .Decisive 10) :=
  ⟨by decide,
   C9_meta_aggregated_parse.2.1 (strL "decisive") (strL "10") .Decisive 10 (by decide)
     (by decide) (by decide)⟩

/-! ## The game interface consumed by the core (src/game.rs)

The `Game` trait is an external collaborator: the core only consumes the
operations below, so they are abstracted as function fields.  `policy` is
the optional prior (called as `parent.policy(&node)` in `ucb::best`; the
node exposes its board and inbound edge, so the model passes those). -/

structure GameI where
  State : Type
  Move : Type
  turn : State → ℤ
  isTerminal : State → Bool
  evaluate : State → ℤ
  legalMoves : State → List Move
  push : State → Move → State
  defaultMove : Move
  policy : State → State → Move → ℚ

/-- External float primitives used by the engine: `fastapprox::faster::ln`
and `f32::sqrt` (in `ucb.rs`), `f64::ln` and `f64::sqrt` (in `uct.rs`),
and the `f32` `exp` used by `MCTS::scale`.  These are library functions
outside the repository, abstracted exactly like the game. -/
structure Prims where
  fasterLn : ℚ → ℚ
  sqrtF : ℚ → ℚ
  lnD : ℚ → ℚ
  sqrtD : ℚ → ℚ
  expF : ℚ → ℚ

/-- Rust panics (`assert`, `expect`, `unwrap`, out-of-bounds indexing,
empty random ranges) are modelled as `.panicked`; `.fuel` marks
exhaustion of the structural fuel the embedding threads through loops
that Rust runs unboundedly. -/
inductive EngineErr where
  | panicked : EngineErr
  | fuel : EngineErr
deriving DecidableEq, Repr

/-! ## Nodes (src/treenode.rs) -/

/-- A search-tree node (`Node<G>` in `src/treenode.rs`). -/
structure Node (S M : Type) where
  board : S
  firstChild : ℕ
  nChildren : ℕ
  parent : Option ℕ
  value : ℚ
  visits : ℕ
  perspective : ℤ
  terminal : Bool
  inboundEdge : M
deriving DecidableEq

/-- Model of `Node::new` (`src/treenode.rs` lines 26-44):
`perspective = -board.turn()`, `terminal = board.is_terminal()`, zeroed
statistics and an empty child range. -/
def Node.new (G : GameI) (board : G.State) (parent : Option ℕ) (inboundEdge : G.Move) :
    Node G.State G.Move :=
  { board := board, firstChild := 0, nChildren := 0, parent := parent, value := 0,
    visits := 0, perspective := -G.turn board, terminal := G.isTerminal board,
    inboundEdge := inboundEdge }

/-- Model of `Node::has_children`. -/
def Node.hasChildren {S M : Type} (n : Node S M) : Bool := n.nChildren > 0

/-- Model of `Node::win_rate` (`value / visits / WIN_SCORE`, `0` at zero
visits). -/
def Node.winRate {S M : Type} (n : Node S M) : ℚ :=
  if n.visits = 0 then 0 else n.value / n.visits / WIN_SCORE

/-- Model of `Node::set_win_score`. -/
def Node.setWinScore {S M : Type} (n : Node S M) (score : ℚ) : Node S M :=
  { n with value := score }

/-- Model of `Node::add_children`. -/
def Node.addChildren {S M : Type} (n : Node S M) (start count : ℕ) : Node S M :=
  { n with firstChild := start, nChildren := count }

/-- Model of `Node::random_child` (`src/treenode.rs` lines 112-114):
`rand::thread_rng().gen_range(self.children())`.  The uniform draw from
the thread-local generator is modelled by reducing the supplied draw
modulo the range length; callers only invoke it on nodes with children
(`gen_range` would otherwise take an empty range and abort). -/
def Node.randomChild {S M : Type} (n : Node S M) (draw : ℕ) : ℕ :=
  n.firstChild + draw % n.nChildren

/-- Model of `Node::update` (`src/treenode.rs` lines 86-97), including
its three asserts: increment `visits`, check the perspective is a sign,
scale `q` from `[-1, 1]` to `[0, WIN_SCORE]` in the node's perspective,
check the ranges, and accumulate into `value`.  The source's local
bindings (`perspective_q`, `value`) are inlined; the early `visits`
increment commutes with the asserts because the increment is only
observable on the `ok` path. -/
def Node.update {S M : Type} (n : Node S M) (q : ℚ) : Except EngineErr (Node S M) :=
  if ¬(n.perspective = 1 ∨ n.perspective = -1) then .error .panicked
  else if ¬(-1 ≤ q ∧ q ≤ 1) then .error .panicked
  else if ¬(0 ≤ (q * (n.perspective : ℚ) + 1) / 2 * WIN_SCORE
      ∧ (q * (n.perspective : ℚ) + 1) / 2 * WIN_SCORE ≤ WIN_SCORE) then .error .panicked
  else .ok { n with visits := n.visits + 1,
                    value := n.value + (q * (n.perspective : ℚ) + 1) / 2 * WIN_SCORE }

/-- Iterated `Node::update`, one call per element of `qs` (the sequence
of rollout results backpropagated through a node over a search). -/
def Node.updateAll {S M : Type} (n : Node S M) : List ℚ → Except EngineErr (Node S M)
  | [] => .ok n
  | q :: qs =>
    match n.update q with
    | .error e => .error e
    | .ok n' => n'.updateAll qs

theorem update_ok_delta {S M : Type} {n n' : Node S M} {q : ℚ}
    (h : n.update q = .ok n') :
    n'.visits = n.visits + 1 ∧ n.value ≤ n'.value ∧ n'.value ≤ n.value + WIN_SCORE := by
  rw [Node.update] at h
  split_ifs at h with h1 h2 h3 <;>
    first
      | exact (Except.noConfusion h)
      | (rw [Except.ok.injEq] at h
         subst h
         refine ⟨rfl, ?_, ?_⟩ <;> simp <;> linarith [h3.1, h3.2])
/-- A fresh maximiser-perspective node over a trivial game, used for
concrete evaluations. -/
@[reducible] def sampleNode : Node Unit Unit :=
  { board := (), firstChild := 0, nChildren := 0, parent := none, value := 0,
    visits := 0, perspective := 1, terminal := false, inboundEdge := () }

/-- C2 (counterexample): one `update` with `q = 1` on a fresh node with
`perspective = 1` adds `10` to `value`, not `(q·perspective + 1)/2 = 1`,
and leaves `value = 10 > visits = 1`, refuting both the unscaled
increment and the `value ≤ visits` bound of the claim. -/
theorem C2_counterexample :
    Node.update sampleNode 1 = .ok { sampleNode with visits := 1, value := 10 }
    ∧ (10 : ℚ) ≠ 0 + (1 * (1 : ℚ) + 1) / 2
    ∧ ¬((10 : ℚ) ≤ (1 : ℚ)) := by
  refine ⟨?_, by norm_num, by norm_num⟩
  rw [Node.update]
  norm_num [sampleNode, WIN_SCORE]

/-- C2 (amended): each backpropagation step on a node increments its
visits by exactly one and adds `(q · perspective + 1) / 2 · WIN_SCORE`
(with `WIN_SCORE = 10`) to its value; consequently every node whose
value is accumulated solely through `update` calls satisfies
`0 ≤ value ≤ WIN_SCORE · visits`. -/
theorem C2_update_scaled_bounds :
    (∀ (S M : Type) (n : Node S M) (q : ℚ),
      (n.perspective = 1 ∨ n.perspective = -1) → -1 ≤ q → q ≤ 1 →
      n.update q = .ok { n with
        visits := n.visits + 1,
        value := n.value + (q * (n.perspective : ℚ) + 1) / 2 * WIN_SCORE })
    ∧ (∀ (S M : Type) (n n' : Node S M) (qs : List ℚ),
        0 ≤ n.value → n.value ≤ WIN_SCORE * n.visits →
        n.updateAll qs = .ok n' →
        0 ≤ n'.value ∧ n'.value ≤ WIN_SCORE * n'.visits) := by
  constructor
  · intro S M n q hp hq1 hq2
    have hv : 0 ≤ (q * (n.perspective : ℚ) + 1) / 2 * WIN_SCORE
        ∧ (q * (n.perspective : ℚ) + 1) / 2 * WIN_SCORE ≤ WIN_SCORE := by
      rcases hp with hp | hp <;> rw [hp] <;> push_cast <;> rw [WIN_SCORE] <;>
        constructor <;> linarith
    rw [Node.update, if_neg (not_not_intro hp), if_neg (not_not_intro ⟨hq1, hq2⟩),
      if_neg (not_not_intro hv)]
  · intro S M n n' qs
    induction qs generalizing n with
    | nil =>
      intro h0 hW h
      rw [Node.updateAll] at h
      rw [Except.ok.injEq] at h
      subst h
      exact ⟨h0, hW⟩
    | cons q qs ih =>
      intro h0 hW h
      rw [Node.updateAll] at h
      cases hu : n.update q with
      | error e => rw [hu] at h; exact (Except.noConfusion h)
      | ok n1 =>
        rw [hu] at h
        obtain ⟨hvis, hlo, hhi⟩ := update_ok_delta hu
        have hcast : ((n1.visits : ℚ)) = (n.visits : ℚ) + 1 := by
          rw [hvis]; push_cast; ring
        have hdist : WIN_SCORE * ((n.visits : ℚ) + 1) = WIN_SCORE * n.visits + WIN_SCORE := by
          ring
        refine ih n1 (by linarith) ?_ h
        rw [hcast, hdist]
        linarith

/-- Witness for C2: the amended theorem applied at a concrete fresh node,
once with a single `update` at `q = 0` and once through `updateAll` over
`[1, 0]`. -/
theorem C2_update_scaled_bounds_witness :
    ((sampleNode.perspective = 1 ∨ sampleNode.perspective = -1)
      ∧ Node.update sampleNode 0 = .ok { sampleNode with
          visits := sampleNode.visits + 1,
          value := sampleNode.value + (0 * (sampleNode.perspective : ℚ) + 1) / 2 * WIN_SCORE })
    ∧ ((0 : ℚ) ≤ sampleNode.value
      ∧ sampleNode.value ≤ WIN_SCORE * sampleNode.visits
      ∧ ∀ n', sampleNode.updateAll [1, 0] = .ok n' →
          0 ≤ n'.value ∧ n'.value ≤ WIN_SCORE * n'.visits) :=
  ⟨⟨Or.inl rfl,
    C2_update_scaled_bounds.1 Unit Unit sampleNode 0 (Or.inl rfl) (by norm_num) (by norm_num)⟩,
   by norm_num [sampleNode],
   by norm_num [sampleNode, WIN_SCORE],
   fun n' h => C2_update_scaled_bounds.2 Unit Unit sampleNode n' [1, 0]
     (by norm_num [sampleNode]) (by norm_num [sampleNode, WIN_SCORE]) h⟩

/-! ## Child selectors (src/ucb.rs, src/uct.rs)

Selection values are modelled in `WithTop ℚ`: the sentinel
`NODE_UNVISITED_VALUE` (`f64::MAX`) returned for unvisited children
dominates every value the formulas produce for visited children, so it
is modelled as `⊤`; `f32::NEG_INFINITY`, the initial best value of the
`ucb::best` scan, is `⊥` in `WithBot (WithTop ℚ)`. -/

/-- Model of `puct` (`src/ucb.rs` lines 4-30): unvisited children get the
dominating sentinel; otherwise
`pb_c = faster::ln((parent + 1.8 + 1) / 1.8) * sqrt(parent) / (visits + 1)`
and the value is `pb_c * policy + q / visits`.  The `_exp_factor`
argument is accepted and ignored, exactly as in the source. -/
def puct (P : Prims) (parentVisits : ℕ) (qValue : ℚ) (visits : ℕ) (_expFactor : ℚ)
    (policy : ℚ) : WithTop ℚ :=
  if visits = 0 then ⊤
  else
    ((P.fasterLn (((parentVisits : ℚ) + 9/5 + 1) / (9/5)) * P.sqrtF (parentVisits : ℚ)
        / ((visits : ℚ) + 1) * policy + qValue / (visits : ℚ) : ℚ) : WithTop ℚ)

/-- The per-child selection values computed inside `ucb::best`: one prior
per child via the game's `policy`, normalised by the total, then `puct`.
(The source zips the node slice with the normalised policy vector
computed from the same slice; the fused map is the same list.) -/
def ucbVals (G : GameI) (P : Prims) (parent : G.State) (nodes : List (Node G.State G.Move))
    (parentVisits : ℕ) (expFactor : ℚ) : List (WithTop ℚ) :=
  nodes.map fun n =>
    puct P parentVisits n.value n.visits expFactor
      (G.policy parent n.board n.inboundEdge
        / (nodes.map fun m => G.policy parent m.board m.inboundEdge).sum)

/-- The scan of `ucb::best` (`src/ucb.rs` lines 47-53): walk the value
list left to right carrying `(best_value, best_index)`, starting from
`(NEG_INFINITY, 0)`, replacing on strict improvement only. -/
def ucbFold : List (WithTop ℚ) → ℕ → WithBot (WithTop ℚ) → ℕ → ℕ
  | [], _, _, bestIdx => bestIdx
  | v :: rest, i, bestVal, bestIdx =>
    if bestVal < (v : WithBot (WithTop ℚ)) then ucbFold rest (i + 1) (v : WithBot (WithTop ℚ)) i
    else ucbFold rest (i + 1) bestVal bestIdx

/-- Model of `ucb::best` (`src/ucb.rs` lines 32-55).  (The source's entry
assert that `nodes` is nonempty is a caller guarantee; the theorems
below hypothesise it.) -/
def ucbBest (G : GameI) (P : Prims) (parent : G.State) (nodes : List (Node G.State G.Move))
    (parentVisits : ℕ) (expFactor : ℚ) : ℕ :=
  ucbFold (ucbVals G P parent nodes parentVisits expFactor) 0 ⊥ 0

/-- Model of `ucb1_value` (`src/uct.rs` lines 22-29): `f64::MAX` for
unvisited children, otherwise
`win_count / visits + sqrt(ln(parent_visits) / visits) * EXP_FACTOR`. -/
def ucb1Value (P : Prims) (parentVisits : ℕ) (winCount : ℚ) (visits : ℕ) : WithTop ℚ :=
  if visits = 0 then ⊤
  else ((winCount / (visits : ℚ)
      + P.sqrtD (P.lnD (parentVisits : ℚ) / (visits : ℚ)) * EXP_FACTOR : ℚ) : WithTop ℚ)

/-- The per-child values computed inside `uct::best`. -/
def uctVals {S M : Type} (P : Prims) (nodes : List (Node S M)) (parentVisits : ℕ) :
    List (WithTop ℚ) :=
  nodes.map fun n => ucb1Value P parentVisits n.value n.visits

/-- The scan underlying Rust `Iterator::max_by_key`: among several
equally maximal elements the LAST one wins, because the reduction keeps
the incoming element whenever it compares greater or equal. -/
def uctFold : List (WithTop ℚ) → ℕ → WithTop ℚ → ℕ → ℕ
  | [], _, _, bestIdx => bestIdx
  | v :: rest, i, bestVal, bestIdx =>
    if bestVal ≤ v then uctFold rest (i + 1) v i
    else uctFold rest (i + 1) bestVal bestIdx

/-- Model of `uct::best` (`src/uct.rs` lines 31-39): `max_by_key` over
the `ucb1_value`s plus `first_index`; on an empty slice the source
unwraps `None` and aborts. -/
def uctBest {S M : Type} (P : Prims) (nodes : List (Node S M)) (parentVisits : ℕ)
    (firstIndex : ℕ) : Except EngineErr ℕ :=
  match uctVals P nodes parentVisits with
  | [] => .error .panicked
  | v :: rest => .ok (uctFold rest 1 v 0 + firstIndex)

theorem ucbFold_sem (vals : List (WithTop ℚ)) :
    ∀ (i bIdx : ℕ) (bVal : WithBot (WithTop ℚ)),
      (ucbFold vals i bVal bIdx = bIdx
        ∧ ∀ v ∈ vals, ¬(bVal < (v : WithBot (WithTop ℚ))))
      ∨ (∃ j, j < vals.length ∧ ucbFold vals i bVal bIdx = i + j
          ∧ bVal < ((vals.getD j ⊤ : WithTop ℚ) : WithBot (WithTop ℚ))
          ∧ (∀ k, k < vals.length → vals.getD k ⊤ ≤ vals.getD j ⊤)
          ∧ (∀ k, k < j → vals.getD k ⊤ < vals.getD j ⊤)) := by
  induction vals with
  | nil => intro i bIdx bVal; left; exact ⟨rfl, by simp⟩
  | cons v rest ih =>
    intro i bIdx bVal
    by_cases hv : bVal < (v : WithBot (WithTop ℚ))
    · rw [ucbFold, if_pos hv]
      rcases ih (i + 1) i (v : WithBot (WithTop ℚ)) with ⟨hr, hall⟩ | ⟨j, hj, hr, hgt, hmax, hstr⟩
      · right
        refine ⟨0, by simp, by simpa using hr, by simpa using hv, ?_, by omega⟩
        intro k hk
        cases k with
        | zero => simp
        | succ k =>
          simp only [List.getD_cons_succ, List.getD_cons_zero]
          simp only [List.length_cons] at hk
          have hmem : rest.getD k ⊤ ∈ rest := by
            rw [List.getD_eq_getElem _ _ (by omega)]
            exact List.getElem_mem _
          have := hall _ hmem
          rw [not_lt, WithBot.coe_le_coe] at this
          exact this
      · right
        refine ⟨j + 1, by simpa using hj, by rw [hr]; omega, ?_, ?_, ?_⟩
        · simpa using lt_trans hv hgt
        · intro k hk
          cases k with
          | zero =>
            simp only [List.getD_cons_zero, List.getD_cons_succ]
            exact le_of_lt (by exact_mod_cast hgt)
          | succ k =>
            simp only [List.getD_cons_succ]
            exact hmax k (by simpa using hk)
        · intro k hk
          cases k with
          | zero =>
            simp only [List.getD_cons_zero, List.getD_cons_succ]
            exact_mod_cast hgt
          | succ k =>
            simp only [List.getD_cons_succ]
            exact hstr k (by omega)
    · rw [ucbFold, if_neg hv]
      rcases ih (i + 1) bIdx bVal with ⟨hr, hall⟩ | ⟨j, hj, hr, hgt, hmax, hstr⟩
      · left
        refine ⟨hr, ?_⟩
        intro w hw
        rcases List.mem_cons.mp hw with hw | hw
        · subst hw; exact hv
        · exact hall _ hw
      · right
        have hvle : (v : WithBot (WithTop ℚ)) < ((rest.getD j ⊤ : WithTop ℚ) : WithBot (WithTop ℚ)) :=
          lt_of_le_of_lt (not_lt.mp hv) hgt
        refine ⟨j + 1, by simpa using hj, by rw [hr]; omega, hgt, ?_, ?_⟩
        · intro k hk
          cases k with
          | zero =>
            simp only [List.getD_cons_zero, List.getD_cons_succ]
            exact le_of_lt (by exact_mod_cast hvle)
          | succ k =>
            simp only [List.getD_cons_succ]
            exact hmax k (by simpa using hk)
        · intro k hk
          cases k with
          | zero =>
            simp only [List.getD_cons_zero, List.getD_cons_succ]
            exact_mod_cast hvle
          | succ k =>
            simp only [List.getD_cons_succ]
            exact hstr k (by omega)
theorem uctFold_sem (vals : List (WithTop ℚ)) :
    ∀ (i bIdx : ℕ) (bVal : WithTop ℚ),
      (uctFold vals i bVal bIdx = bIdx ∧ ∀ v ∈ vals, v < bVal)
      ∨ (∃ j, j < vals.length ∧ uctFold vals i bVal bIdx = i + j
          ∧ bVal ≤ vals.getD j ⊤
          ∧ (∀ k, k < vals.length → vals.getD k ⊤ ≤ vals.getD j ⊤)
          ∧ (∀ k, j < k → k < vals.length → vals.getD k ⊤ < vals.getD j ⊤)) := by
  induction vals with
  | nil => intro i bIdx bVal; left; exact ⟨rfl, by simp⟩
  | cons v rest ih =>
    intro i bIdx bVal
    by_cases hv : bVal ≤ v
    · rw [uctFold, if_pos hv]
      rcases ih (i + 1) i v with ⟨hr, hall⟩ | ⟨j, hj, hr, hge, hmax, hstr⟩
      · right
        refine ⟨0, by simp, by simpa using hr, by simpa using hv, ?_, ?_⟩
        · intro k hk
          cases k with
          | zero => simp
          | succ k =>
            simp only [List.getD_cons_succ, List.getD_cons_zero]
            simp only [List.length_cons] at hk
            have hmem : rest.getD k ⊤ ∈ rest := by
              rw [List.getD_eq_getElem _ _ (by omega)]
              exact List.getElem_mem _
            exact le_of_lt (hall _ hmem)
        · intro k hk0 hk
          cases k with
          | zero => omega
          | succ k =>
            simp only [List.getD_cons_succ, List.getD_cons_zero]
            simp only [List.length_cons] at hk
            have hmem : rest.getD k ⊤ ∈ rest := by
              rw [List.getD_eq_getElem _ _ (by omega)]
              exact List.getElem_mem _
            exact hall _ hmem
      · right
        refine ⟨j + 1, by simpa using hj, by rw [hr]; omega, ?_, ?_, ?_⟩
        · simpa using le_trans hv hge
        · intro k hk
          cases k with
          | zero => simpa using hge
          | succ k =>
            simp only [List.getD_cons_succ]
            exact hmax k (by simpa using hk)
        · intro k hk0 hk
          cases k with
          | zero => omega
          | succ k =>
            simp only [List.getD_cons_succ]
            exact hstr k (by omega) (by simpa using hk)
    · rw [uctFold, if_neg hv]
      rcases ih (i + 1) bIdx bVal with ⟨hr, hall⟩ | ⟨j, hj, hr, hge, hmax, hstr⟩
      · left
        refine ⟨hr, ?_⟩
        intro w hw
        rcases List.mem_cons.mp hw with hw | hw
        · subst hw; exact not_le.mp hv
        · exact hall _ hw
      · right
        have hvlt : v < rest.getD j ⊤ := lt_of_lt_of_le (not_le.mp hv) hge
        refine ⟨j + 1, by simpa using hj, by rw [hr]; omega, hge, ?_, ?_⟩
        · intro k hk
          cases k with
          | zero => simpa using le_of_lt hvlt
          | succ k =>
            simp only [List.getD_cons_succ]
            exact hmax k (by simpa using hk)
        · intro k hk0 hk
          cases k with
          | zero => omega
          | succ k =>
            simp only [List.getD_cons_succ]
            exact hstr k (by omega) (by simpa using hk)
/-- Concrete all-zero float primitives, for closed evaluations. -/
@[reducible] def zeroPrims : Prims :=
  { fasterLn := fun _ => 0, sqrtF := fun _ => 0, lnD := fun _ => 0, sqrtD := fun _ => 0,
    expF := fun _ => 0 }

/-- A trivial game over unit state and moves, for closed evaluations of
the selector. -/
@[reducible] def unitGame : GameI :=
  { State := Unit, Move := Unit, turn := fun _ => 1, isTerminal := fun _ => true,
    evaluate := fun _ => 0, legalMoves := fun _ => [], push := fun s _ => s,
    defaultMove := (), policy := fun _ _ _ => 1 }

/-- C4 (counterexample): `uct::best` on two identical unvisited children
(both valued at the unvisited sentinel, a tie) returns index `1`, the
LAST of the tied children, not the earliest (`0`) required by the
claim. -/
theorem C4_counterexample :
    uctBest zeroPrims [sampleNode, sampleNode] 0 0 = .ok 1
    ∧ uctVals zeroPrims [sampleNode, sampleNode] 0 = [⊤, ⊤]
    ∧ (1 : ℕ) ≠ 0 := by
  refine ⟨?_, ?_, by omega⟩ <;> rfl

/-- C4 (amended): both selectors return the index of a child attaining
the maximal selection value, and every unvisited child is assigned the
dominating sentinel value; but the tie-break direction differs:
`ucb::best` (used by the search driver) returns the EARLIEST index
attaining the maximum, while `uct::best` returns the LAST index
attaining the maximum (plus `first_index`). -/
theorem C4_selector_argmax :
    (∀ (G : GameI) (P : Prims) (parent : G.State) (nodes : List (Node G.State G.Move))
        (pv : ℕ) (c : ℚ), nodes ≠ [] →
      ucbBest G P parent nodes pv c < nodes.length
      ∧ (∀ k, k < nodes.length →
          (ucbVals G P parent nodes pv c).getD k ⊤ ≤
            (ucbVals G P parent nodes pv c).getD (ucbBest G P parent nodes pv c) ⊤)
      ∧ (∀ k, k < ucbBest G P parent nodes pv c →
          (ucbVals G P parent nodes pv c).getD k ⊤ <
            (ucbVals G P parent nodes pv c).getD (ucbBest G P parent nodes pv c) ⊤))
    ∧ (∀ (G : GameI) (P : Prims) (parent : G.State) (nodes : List (Node G.State G.Move))
        (pv : ℕ) (c : ℚ) (k : ℕ) (hk : k < nodes.length), nodes[k].visits = 0 →
          (ucbVals G P parent nodes pv c).getD k ⊤ = ⊤)
    ∧ (∀ (S M : Type) (P : Prims) (nodes : List (Node S M)) (pv fi : ℕ), nodes ≠ [] →
      ∃ j, uctBest P nodes pv fi = .ok (j + fi) ∧ j < nodes.length
        ∧ (∀ k, k < nodes.length →
            (uctVals P nodes pv).getD k ⊤ ≤ (uctVals P nodes pv).getD j ⊤)
        ∧ (∀ k, j < k → k < nodes.length →
            (uctVals P nodes pv).getD k ⊤ < (uctVals P nodes pv).getD j ⊤)) := by
  refine ⟨?_, ?_, ?_⟩
  · intro G P parent nodes pv c hne
    have hlen : (ucbVals G P parent nodes pv c).length = nodes.length := by
      simp [ucbVals]
    rcases ucbFold_sem (ucbVals G P parent nodes pv c) 0 0 ⊥ with ⟨_, hall⟩ |
      ⟨j, hj, hr, _, hmax, hstr⟩
    · exfalso
      cases hv : ucbVals G P parent nodes pv c with
      | nil => rw [hv] at hlen; exact hne (List.length_eq_zero.mp hlen.symm)
      | cons w ws =>
        exact absurd (WithBot.bot_lt_coe w) (hall w (by rw [hv]; exact List.mem_cons_self w ws))
    · rw [ucbBest, hr]
      simp only [Nat.zero_add]
      exact ⟨hlen ▸ hj, fun k hk => hmax k (hlen ▸ hk), hstr⟩
  · intro G P parent nodes pv c k hk hv
    have : (ucbVals G P parent nodes pv c).getD k ⊤ =
        puct P pv nodes[k].value nodes[k].visits c
          (G.policy parent nodes[k].board nodes[k].inboundEdge
            / (nodes.map fun m => G.policy parent m.board m.inboundEdge).sum) := by
      rw [ucbVals, List.getD_eq_getElem _ _ (by simpa using hk)]
      simp
    rw [this, puct, if_pos hv]
  · intro S M P nodes pv fi hne
    rcases hv : uctVals P nodes pv with _ | ⟨v, rest⟩
    · exfalso
      have : (uctVals P nodes pv).length = nodes.length := by simp [uctVals]
      rw [hv] at this
      exact hne (List.length_eq_zero.mp this.symm)
    · have hlen : nodes.length = rest.length + 1 := by
        have : (uctVals P nodes pv).length = nodes.length := by simp [uctVals]
        rw [hv] at this
        simpa using this.symm
      rcases uctFold_sem rest 1 0 v with ⟨hr, hall⟩ | ⟨j, hj, hr, hge, hmax, hstr⟩
      · refine ⟨0, ?_, by omega, ?_, ?_⟩
        · rw [uctBest, hv]
          show Except.ok (uctFold rest 1 v 0 + fi) = Except.ok (0 + fi)
          rw [hr]
        · intro k hk
          cases k with
          | zero => simp
          | succ k =>
            simp only [List.getD_cons_succ, List.getD_cons_zero]
            have hmem : rest.getD k ⊤ ∈ rest := by
              rw [List.getD_eq_getElem _ _ (by omega)]
              exact List.getElem_mem _
            exact le_of_lt (hall _ hmem)
        · intro k hk0 hk
          cases k with
          | zero => omega
          | succ k =>
            simp only [List.getD_cons_succ, List.getD_cons_zero]
            have hmem : rest.getD k ⊤ ∈ rest := by
              rw [List.getD_eq_getElem _ _ (by omega)]
              exact List.getElem_mem _
            exact hall _ hmem
      · refine ⟨j + 1, ?_, by omega, ?_, ?_⟩
        · rw [uctBest, hv]
          show Except.ok (uctFold rest 1 v 0 + fi) = Except.ok (j + 1 + fi)
          rw [hr]
          congr 1
          omega
        · intro k hk
          cases k with
          | zero => simpa using hge
          | succ k =>
            simp only [List.getD_cons_succ]
            exact hmax k (by omega)
        · intro k hk0 hk
          cases k with
          | zero => omega
          | succ k =>
            simp only [List.getD_cons_succ]
            exact hstr k (by omega) (by omega)

/-- Witness for C4: the amended theorem applied to concrete child lists,
with the nonemptiness hypotheses discharged. -/
theorem C4_selector_argmax_witness :
    (([sampleNode] : List (Node Unit Unit)) ≠ []
      ∧ ucbBest unitGame zeroPrims () [sampleNode] 0 (1/2) < 1)
    ∧ (([sampleNode, sampleNode] : List (Node Unit Unit)) ≠ []
      ∧ ∃ j, uctBest zeroPrims [sampleNode, sampleNode] 0 5 = .ok (j + 5) ∧ j < 2) :=
  ⟨⟨by simp, (C4_selector_argmax.1 unitGame zeroPrims () [sampleNode] 0 (1/2) (by simp)).1⟩,
   ⟨by simp, by
      obtain ⟨j, h1, h2, -, -⟩ :=
        C4_selector_argmax.2.2 Unit Unit zeroPrims [sampleNode, sampleNode] 0 5 (by simp)
      exact ⟨j, h1, h2⟩⟩⟩

/-! ## Rollout policies (src/mcts.rs lines 589-700)

Rollouts consume the engine's `fastrand::Rng`, modelled as a draw stream
`f : ℕ → ℕ` with a cursor `fi`; `rng.usize(..len)` is `f fi % len`.
Rust's unbounded `while !terminal` loops are threaded through a `fuel`
parameter; exhausting it yields the model-artifact error `.fuel`. -/

/-- Model of the game's `push_random` (spec: apply a uniformly random
legal move; fail on a state with no legal moves). -/
def pushRandom (G : GameI) (board : G.State) (draw : ℕ) : Except EngineErr G.State :=
  match G.legalMoves board with
  | [] => .error .panicked
  | ms => .ok (G.push board (ms.getD (draw % ms.length) G.defaultMove))

/-- Model of `random_rollout` (`src/mcts.rs` lines 592-597): push random
moves until terminal, then return the evaluation. -/
def randomRollout (G : GameI) (fuel : ℕ) (f : ℕ → ℕ) (fi : ℕ) (board : G.State) :
    Except EngineErr (ℚ × ℕ) :=
  match fuel with
  | 0 => .error .fuel
  | fuel + 1 =>
    if G.isTerminal board then .ok (((G.evaluate board : ℚ)), fi)
    else
      match pushRandom G board (f fi) with
      | .error e => .error e
      | .ok board' => randomRollout G fuel f (fi + 1) board'

/-- The inner for-loop shared by the decisive rollouts (`src/mcts.rs`
lines 624-631, 644-650, 686-693): for each legal move the source clones
the board and pushes the move into the clone (`board_copy`), but then
evaluates the ORIGINAL `playout_board`, returning that evaluation if it
is non-zero.  The clone is therefore dead, and the scan fires exactly
when the pre-move position evaluates non-zero; this is preserved
verbatim. -/
def decisiveScan (G : GameI) (board : G.State) : List G.Move → Option ℤ
  | [] => none
  | m :: ms =>
    let boardCopy := G.push board m
    let evaluation := G.evaluate board
    if evaluation ≠ 0 then some evaluation else decisiveScan G board ms

/-- Model of `decisive_rollout` (`src/mcts.rs` lines 620-636): at each
non-terminal step run the scan above; if it yields a value, return it,
otherwise play a random move from the buffer (`rng.usize(..len)` aborts
on an empty buffer). -/
def decisiveRollout (G : GameI) (fuel : ℕ) (f : ℕ → ℕ) (fi : ℕ) (board : G.State) :
    Except EngineErr (ℚ × ℕ) :=
  match fuel with
  | 0 => .error .fuel
  | fuel + 1 =>
    if G.isTerminal board then .ok (((G.evaluate board : ℚ)), fi)
    else
      match decisiveScan G board (G.legalMoves board) with
      | some e => .ok (((e : ℚ)), fi)
      | none =>
        if (G.legalMoves board).length = 0 then .error .panicked
        else
          decisiveRollout G fuel f (fi + 1)
            (G.push board ((G.legalMoves board).getD (f fi % (G.legalMoves board).length)
              G.defaultMove))

/-- A three-state game exhibiting the decisive-rollout defect: state `0`
is non-terminal with evaluation `0` and two legal moves; move `0` leads
to state `1`, an immediate terminal WIN (evaluation `1`); move `1` leads
to state `2`, a terminal draw (evaluation `0`). -/
@[reducible] def decGame : GameI :=
  { State := ℕ, Move := ℕ,
    turn := fun _ => 1,
    isTerminal := fun s => decide (s ≠ 0),
    evaluate := fun s => if s = 1 then 1 else 0,
    legalMoves := fun s => if s = 0 then [0, 1] else [],
    push := fun s m => if s = 0 then m + 1 else s,
    defaultMove := 0,
    policy := fun _ _ _ => 1 }

/-- C3 (code bug): in `decGame`, move `0` from the root leads to an
immediate terminal state of non-zero evaluation `1`, yet the decisive
scan sees nothing (it evaluates the pre-move board, which is `0`), and a
rollout whose random draw picks the other move returns `0`, not the
winning evaluation `1` required by the claim and by the function's own
documentation ("if there is a move that wins on the spot, we play that
move"). -/
theorem C3_code_bug_eval :
    decGame.isTerminal (decGame.push 0 0) = true
    ∧ decGame.evaluate (decGame.push 0 0) = 1
    ∧ (0 : ℕ) ∈ decGame.legalMoves 0
    ∧ decisiveScan decGame 0 (decGame.legalMoves 0) = none
    ∧ decisiveRollout decGame 5 (fun _ => 1) 0 0 = .ok (0, 1)
    ∧ ((0 : ℚ)) ≠ ((1 : ℤ) : ℚ) := by
  refine ⟨rfl, rfl, by decide, rfl, rfl, by norm_num⟩

/-! ## Quality-scaled rollouts (src/mcts.rs lines 599-658)

The Rust code scales the terminal outcome by `(-0.04 * moves).exp()` in
`f32`; the float `exp` is the external primitive `Prims.expF`, and the
mathematical content of the scaling formula (with the real exponential
and `0.04 = 1/25`) appears inline in the theorems below. -/

/-- Model of `MCTS::scale` (`src/mcts.rs` lines 602-604):
`q * (-0.04 * moves).exp()`, with the float `exp` abstracted as
`P.expF`. -/
def scaleE (P : Prims) (q : ℚ) (moves : ℕ) : ℚ :=
  q * P.expF (-(1/25) * (moves : ℚ))

/-- Model of `random_rollout_qs` (`src/mcts.rs` lines 607-615); the
`moves` counter starts at `1` and increments per random move pushed. -/
def randomRolloutQs (G : GameI) (P : Prims) (fuel : ℕ) (f : ℕ → ℕ) (fi : ℕ) (moves : ℕ)
    (board : G.State) : Except EngineErr (ℚ × ℕ) :=
  match fuel with
  | 0 => .error .fuel
  | fuel + 1 =>
    if G.isTerminal board then .ok (scaleE P ((G.evaluate board : ℚ)) moves, fi)
    else
      match pushRandom G board (f fi) with
      | .error e => .error e
      | .ok board' => randomRolloutQs G P fuel f (fi + 1) (moves + 1) board'

/-- Model of `decisive_rollout_qs` (`src/mcts.rs` lines 639-658): like
`decisive_rollout` (including the pre-move-evaluation defect in the
scan), but a scan hit returns `evaluation / (moves + 10) * 10` and the
terminal exit returns `scale(evaluation, moves)`. -/
def decisiveRolloutQs (G : GameI) (P : Prims) (fuel : ℕ) (f : ℕ → ℕ) (fi : ℕ) (moves : ℕ)
    (board : G.State) : Except EngineErr (ℚ × ℕ) :=
  match fuel with
  | 0 => .error .fuel
  | fuel + 1 =>
    if G.isTerminal board then .ok (scaleE P ((G.evaluate board : ℚ)) moves, fi)
    else
      match decisiveScan G board (G.legalMoves board) with
      | some e => .ok (((e : ℚ)) / ((moves : ℚ) + 10) * 10, fi)
      | none =>
        if (G.legalMoves board).length = 0 then .error .panicked
        else
          decisiveRolloutQs G P fuel f (fi + 1) (moves + 1)
            (G.push board ((G.legalMoves board).getD (f fi % (G.legalMoves board).length)
              G.defaultMove))

/-- A game whose lone non-terminal state evaluates to `1` (the game
interface leaves non-terminal evaluations unspecified), driving the
decisive scan's early return. -/
@[reducible] def qsGame : GameI :=
  { State := ℕ, Move := Unit,
    turn := fun _ => 1,
    isTerminal := fun s => decide (s ≠ 0),
    evaluate := fun s => if s = 0 then 1 else 0,
    legalMoves := fun s => if s = 0 then [()] else [],
    push := fun _ _ => 1,
    defaultMove := (),
    policy := fun _ _ _ => 1 }
theorem decisiveScan_ne_zero {G : GameI} {board : G.State} :
    ∀ {ms : List G.Move} {e : ℤ}, decisiveScan G board ms = some e → e ≠ 0 := by
  intro ms
  induction ms with
  | nil => intro e h; exact (Option.noConfusion h)
  | cons m rest ih =>
    intro e h
    rw [decisiveScan] at h
    split_ifs at h with hne
    · rw [Option.some.injEq] at h
      subst h
      exact hne
    · exact ih h

/-- C7 (counterexample): from `qsGame`'s root the decisive quality-scaled
rollout takes the scan's early branch and returns `10/11`, which is not
`q · exp(-0.04 · m)` for any outcome `q ∈ {-1, 0, 1}` and any move count
`m` (`exp(-0.04·m) ≥ 0.92 > 10/11` for `m ≤ 2` and
`exp(-0.04·m) ≤ 25/28 < 10/11` for `m ≥ 3`). -/
theorem C7_counterexample :
    decisiveRolloutQs qsGame zeroPrims 5 (fun _ => 0) 0 1 0 = .ok ((10/11 : ℚ), 0)
    ∧ ∀ (q : ℚ) (m : ℕ), (q = -1 ∨ q = 0 ∨ q = 1) →
        (((10/11 : ℚ) : ℝ)) ≠ (q : ℝ) * Real.exp (-(1/25 : ℝ) * (m : ℝ)) := by
  constructor
  · rw [decisiveRolloutQs]
    norm_num [decisiveScan, qsGame]
  · intro q m hq
    have hpos := Real.exp_pos (-(1/25 : ℝ) * (m : ℝ))
    rcases hq with hq | hq | hq <;> subst hq <;> push_cast <;> intro heq
    · nlinarith
    · nlinarith
    · rcases le_or_lt (m : ℝ) 2 with hm | hm
      · have hlb := Real.add_one_le_exp (-(1/25 : ℝ) * (m : ℝ))
        nlinarith
      · have hm3 : (3 : ℝ) ≤ (m : ℝ) := by
          have : (2 : ℕ) < m := by exact_mod_cast hm
          exact_mod_cast this
        have hmono : Real.exp (-(1/25 : ℝ) * (m : ℝ)) ≤ Real.exp (-(3/25 : ℝ)) :=
          Real.exp_le_exp.mpr (by linarith)
        have hub : Real.exp (-(3/25 : ℝ)) ≤ 25/28 := by
          rw [Real.exp_neg]
          have h1 : (28/25 : ℝ) ≤ Real.exp (3/25) := by
            have := Real.add_one_le_exp (3/25 : ℝ)
            linarith
          have h2 : (0 : ℝ) < 28/25 := by norm_num
          calc (Real.exp (3/25))⁻¹ ≤ (28/25 : ℝ)⁻¹ := by
                exact inv_le_inv_of_le h2 h1
            _ = 25/28 := by norm_num
        nlinarith

/-- C7 (amended): the random quality-scaled rollout, and the terminal
branch of the decisive one, return the terminal outcome scaled by
`exp(-0.04 · moves)` (the float `exp` abstracted as `Prims.expF`), where
`moves` starts at 1; the decisive scan's early branch instead returns
`evaluation · 10 / (moves + 10)`.  Both scaling shapes are bounded by 1
in magnitude and are monotonically non-increasing in the move counter
for a fixed outcome. -/
theorem C7_quality_scaling :
    (∀ (G : GameI) (P : Prims) (fuel : ℕ) (f : ℕ → ℕ) (fi m0 : ℕ) (board : G.State)
        (r : ℚ) (fi' : ℕ),
      randomRolloutQs G P fuel f fi m0 board = .ok (r, fi') →
      ∃ (s' : G.State) (m : ℕ), m0 ≤ m ∧ G.isTerminal s' = true
        ∧ r = scaleE P ((G.evaluate s' : ℚ)) m)
    ∧ (∀ (G : GameI) (P : Prims) (fuel : ℕ) (f : ℕ → ℕ) (fi m0 : ℕ) (board : G.State)
        (r : ℚ) (fi' : ℕ),
      decisiveRolloutQs G P fuel f fi m0 board = .ok (r, fi') →
      (∃ (s' : G.State) (m : ℕ), m0 ≤ m ∧ G.isTerminal s' = true
        ∧ r = scaleE P ((G.evaluate s' : ℚ)) m)
      ∨ (∃ (e : ℤ) (m : ℕ), m0 ≤ m ∧ e ≠ 0 ∧ r = ((e : ℚ)) / ((m : ℚ) + 10) * 10))
    ∧ (∀ (q : ℚ) (m : ℕ), -1 ≤ q → q ≤ 1 →
        |(q : ℝ) * Real.exp (-(1/25 : ℝ) * (m : ℝ))| ≤ 1)
    ∧ (∀ (q : ℚ) (m m' : ℕ), m ≤ m' →
        |(q : ℝ) * Real.exp (-(1/25 : ℝ) * (m' : ℝ))|
          ≤ |(q : ℝ) * Real.exp (-(1/25 : ℝ) * (m : ℝ))|)
    ∧ (∀ (e : ℤ) (m : ℕ), -1 ≤ e → e ≤ 1 → |((e : ℚ)) / ((m : ℚ) + 10) * 10| ≤ 1)
    ∧ (∀ (e : ℤ) (m m' : ℕ), m ≤ m' →
        |((e : ℚ)) / ((m' : ℚ) + 10) * 10| ≤ |((e : ℚ)) / ((m : ℚ) + 10) * 10|) := by
  refine ⟨?_, ?_, ?_, ?_, ?_, ?_⟩
  · intro G P fuel
    induction fuel with
    | zero => intro f fi m0 board r fi' h; exact (Except.noConfusion h)
    | succ fuel ih =>
      intro f fi m0 board r fi' h
      rw [randomRolloutQs] at h
      by_cases ht : G.isTerminal board
      · rw [if_pos ht] at h
        rw [Except.ok.injEq, Prod.mk.injEq] at h
        exact ⟨board, m0, le_refl m0, ht, h.1.symm⟩
      · rw [if_neg ht] at h
        cases hp : pushRandom G board (f fi) with
        | error e => rw [hp] at h; exact (Except.noConfusion h)
        | ok board' =>
          rw [hp] at h
          obtain ⟨s', m, hm, hterm, hr⟩ := ih f (fi + 1) (m0 + 1) board' r fi' h
          exact ⟨s', m, by omega, hterm, hr⟩
  · intro G P fuel
    induction fuel with
    | zero => intro f fi m0 board r fi' h; exact (Except.noConfusion h)
    | succ fuel ih =>
      intro f fi m0 board r fi' h
      rw [decisiveRolloutQs] at h
      by_cases ht : G.isTerminal board
      · rw [if_pos ht] at h
        rw [Except.ok.injEq, Prod.mk.injEq] at h
        exact Or.inl ⟨board, m0, le_refl m0, ht, h.1.symm⟩
      · rw [if_neg ht] at h
        cases hs : decisiveScan G board (G.legalMoves board) with
        | some e =>
          rw [hs] at h
          rw [Except.ok.injEq, Prod.mk.injEq] at h
          have he : e ≠ 0 := decisiveScan_ne_zero hs
          exact Or.inr ⟨e, m0, le_refl m0, he, h.1.symm⟩
        | none =>
          rw [hs] at h
          by_cases hl : (G.legalMoves board).length = 0
          · rw [if_pos hl] at h; exact (Except.noConfusion h)
          · rw [if_neg hl] at h
            rcases ih f (fi + 1) (m0 + 1) _ r fi' h with ⟨s', m, hm, hterm, hr⟩ |
              ⟨e, m, hm, he, hr⟩
            · exact Or.inl ⟨s', m, by omega, hterm, hr⟩
            · exact Or.inr ⟨e, m, by omega, he, hr⟩
  · intro q m hq1 hq2
    rw [abs_mul, Real.abs_exp]
    have h1 : |(q : ℝ)| ≤ 1 := by
      rw [abs_le]
      constructor <;> [exact_mod_cast hq1; exact_mod_cast hq2]
    have h2 : Real.exp (-(1/25 : ℝ) * (m : ℝ)) ≤ 1 := by
      have hx : -(1/25 : ℝ) * (m : ℝ) ≤ 0 := by
        have hm : (0 : ℝ) ≤ (m : ℝ) := Nat.cast_nonneg m
        nlinarith
      calc Real.exp (-(1/25 : ℝ) * (m : ℝ)) ≤ Real.exp 0 := Real.exp_le_exp.mpr hx
        _ = 1 := Real.exp_zero
    calc |(q : ℝ)| * Real.exp (-(1/25 : ℝ) * (m : ℝ)) ≤ 1 * 1 :=
          mul_le_mul h1 h2 (Real.exp_pos _).le (by norm_num)
      _ = 1 := by norm_num
  · intro q m m' hm
    rw [abs_mul, abs_mul, Real.abs_exp, Real.abs_exp]
    have hmono : Real.exp (-(1/25 : ℝ) * (m' : ℝ)) ≤ Real.exp (-(1/25 : ℝ) * (m : ℝ)) := by
      apply Real.exp_le_exp.mpr
      have : (m : ℝ) ≤ (m' : ℝ) := by exact_mod_cast hm
      nlinarith
    exact mul_le_mul_of_nonneg_left hmono (abs_nonneg _)
  · intro e m he1 he2
    have habs : |((e : ℚ))| ≤ 1 := by
      rw [abs_le]
      constructor <;> [exact_mod_cast he1; exact_mod_cast he2]
    have hden : (0 : ℚ) < (m : ℚ) + 10 := by positivity
    rw [abs_mul, abs_div]
    have h10 : |(10 : ℚ)| = 10 := by norm_num
    have hdenabs : |((m : ℚ) + 10)| = (m : ℚ) + 10 := abs_of_pos hden
    rw [h10, hdenabs]
    rw [div_mul_eq_mul_div, div_le_one hden]
    nlinarith [Nat.cast_nonneg (α := ℚ) m]
  · intro e m m' hm
    have hden : (0 : ℚ) < (m : ℚ) + 10 := by positivity
    have hden' : (0 : ℚ) < (m' : ℚ) + 10 := by positivity
    rw [abs_mul, abs_div, abs_mul, abs_div, abs_of_pos hden, abs_of_pos hden']
    have hmm : (m : ℚ) ≤ (m' : ℚ) := by exact_mod_cast hm
    have h10 : |(10 : ℚ)| = 10 := by norm_num
    rw [h10]
    have hdd : |((e : ℚ))| / ((m' : ℚ) + 10) ≤ |((e : ℚ))| / ((m : ℚ) + 10) :=
      div_le_div_of_nonneg_left (abs_nonneg _) hden (by linarith)
    exact mul_le_mul_of_nonneg_right hdd (by norm_num)
/-- Witness for C7: the amended theorem applied to a concrete rollout on
an everywhere-terminal game and to the exp-scaling bound at `q = 1/2`,
`m = 3`. -/
theorem C7_quality_scaling_witness :
    randomRolloutQs unitGame zeroPrims 1 (fun _ => 0) 0 1 () = .ok (0, 0)
    ∧ (∃ (s' : unitGame.State) (m : ℕ), 1 ≤ m ∧ unitGame.isTerminal s' = true
        ∧ (0 : ℚ) = scaleE zeroPrims ((unitGame.evaluate s' : ℚ)) m)
    ∧ (-1 ≤ (1/2 : ℚ) ∧ (1/2 : ℚ) ≤ 1
        ∧ |((1/2 : ℚ) : ℝ) * Real.exp (-(1/25 : ℝ) * ((3 : ℕ) : ℝ))| ≤ 1) := by
  have h : randomRolloutQs unitGame zeroPrims 1 (fun _ => 0) 0 1 () = .ok (0, 0) := by
    rw [randomRolloutQs]
    simp only [unitGame, scaleE, zeroPrims]
    norm_num
  exact ⟨h, C7_quality_scaling.1 unitGame zeroPrims 1 (fun _ => 0) 0 1 () 0 0 h,
    by norm_num, by norm_num,
    C7_quality_scaling.2.2.1 (1/2) 3 (by norm_num) (by norm_num)⟩

/-! ## The search arena (src/searchtree.rs) -/

/-- Model of `SearchTree<G>` (`src/searchtree.rs` lines 42-48). -/
structure SearchTree (S M : Type) where
  rootState : Option S
  nodes : List (Node S M)
  capacity : ℕ
  rollouts : ℕ
deriving DecidableEq

/-- Model of `SearchTree::with_capacity`. -/
def SearchTree.withCapacity (S M : Type) (capacity : ℕ) : SearchTree S M :=
  { rootState := none, nodes := [], capacity := capacity, rollouts := 0 }

/-- Bounds-checked node access (`SearchTree::get` / `Vec::get`). -/
def SearchTree.get {S M : Type} (t : SearchTree S M) (idx : ℕ) : Option (Node S M) :=
  t.nodes.get? idx

/-- Write one node slot (the effect of a `get_mut`). -/
def SearchTree.setNode {S M : Type} (t : SearchTree S M) (idx : ℕ) (n : Node S M) :
    SearchTree S M :=
  { t with nodes := t.nodes.set idx n }

/-- Model of `SearchTree::inc_rollouts`. -/
def SearchTree.incRollouts {S M : Type} (t : SearchTree S M) : SearchTree S M :=
  { t with rollouts := t.rollouts + 1 }

/-- Model of `SearchTree::setup` (`src/searchtree.rs` lines 112-117):
clear the arena, push a fresh root node carrying the root state (with
`parent = None` and the default inbound edge), remember the root state,
zero the rollout counter. -/
def SearchTree.setup (G : GameI) (t : SearchTree G.State G.Move) (root : G.State) :
    SearchTree G.State G.Move :=
  { t with nodes := [Node.new G root none G.defaultMove], rootState := some root,
           rollouts := 0 }

/-- Model of `SearchTree::expand` (`src/searchtree.rs` lines 129-149):
record `start = nodes.len()`, require the node to exist (`expect`) and to
be childless (assert), generate the moves from the supplied traversal
board, append one fresh child per move — each with `parent = Some(idx)`
and the child board obtained by pushing its move (the snapshot passes the
parent's negated turn to an older `Node::new`; both give the child the
perspective of the side that just moved) — then set the parent's child
range.  The per-push capacity check (`nodes.len() == capacity` aborts)
fires exactly when the new total would exceed the capacity. -/
def SearchTree.expand (G : GameI) (t : SearchTree G.State G.Move) (idx : ℕ)
    (movegenBoard : G.State) : Except EngineErr (SearchTree G.State G.Move) :=
  match t.nodes.get? idx with
  | none => .error .panicked
  | some node =>
    if node.hasChildren then .error .panicked
    else if t.capacity < t.nodes.length + (G.legalMoves movegenBoard).length then
      .error .panicked
    else
      let children := (G.legalMoves movegenBoard).map
        (fun m => Node.new G (G.push movegenBoard m) (some idx) m)
      let parent := node.addChildren t.nodes.length (G.legalMoves movegenBoard).length
      Except.ok { t with nodes := (t.nodes ++ children).set idx parent }

/-- The visit-collection loop of `root_rollout_distribution`
(`src/searchtree.rs` lines 72-78); indexing out of the arena aborts. -/
def collectVisits {S M : Type} (t : SearchTree S M) : ℕ → ℕ → Except EngineErr (List ℕ)
  | _, 0 => .ok []
  | start, k + 1 =>
    match t.nodes.get? start with
    | none => .error .panicked
    | some n =>
      match collectVisits t (start + 1) k with
      | .error e => .error e
      | .ok rest => .ok (n.visits :: rest)

/-- Model of `SearchTree::root_rollout_distribution`: the `visits` of
each root child, in child-range order (`root()` aborts on an empty
arena). -/
def SearchTree.rootRolloutDistribution {S M : Type} (t : SearchTree S M) :
    Except EngineErr (List ℕ) :=
  match t.nodes.get? ROOT_IDX with
  | none => .error .panicked
  | some root => collectVisits t root.firstChild root.nChildren

/-! ## Remaining rollout policies (src/mcts.rs lines 660-700) -/

/-- Model of `random_rollout_cutoff` (`src/mcts.rs` lines 663-673): the
`counter` starts at 1; once it exceeds the configured bound the rollout
returns `0.0`. -/
def randomRolloutCutoff (G : GameI) (fuel : ℕ) (f : ℕ → ℕ) (fi counter moves : ℕ)
    (board : G.State) : Except EngineErr (ℚ × ℕ) :=
  match fuel with
  | 0 => .error .fuel
  | fuel + 1 =>
    if G.isTerminal board then .ok (((G.evaluate board : ℚ)), fi)
    else if moves < counter then .ok (0, fi)
    else
      match pushRandom G board (f fi) with
      | .error e => .error e
      | .ok board' => randomRolloutCutoff G fuel f (fi + 1) (counter + 1) moves board'

/-- Model of `decisive_rollout_cutoff` (`src/mcts.rs` lines 678-700):
like `decisive_rollout` (same dead `board_copy`, same pre-move
evaluation in the scan), with the cutoff counter, except that the random
move is drawn from `rand::thread_rng()` (the thread stream `t`), not the
engine rng. -/
def decisiveRolloutCutoff (G : GameI) (fuel : ℕ) (t : ℕ → ℕ) (ti counter moves : ℕ)
    (board : G.State) : Except EngineErr (ℚ × ℕ) :=
  match fuel with
  | 0 => .error .fuel
  | fuel + 1 =>
    if G.isTerminal board then .ok (((G.evaluate board : ℚ)), ti)
    else if moves < counter then .ok (0, ti)
    else
      match decisiveScan G board (G.legalMoves board) with
      | some e => .ok (((e : ℚ)), ti)
      | none =>
        if (G.legalMoves board).length = 0 then .error .panicked
        else
          decisiveRolloutCutoff G fuel t (ti + 1) (counter + 1) moves
            (G.push board ((G.legalMoves board).getD (t ti % (G.legalMoves board).length)
              G.defaultMove))

/-! ## Configuration and the search driver (src/mcts.rs) -/

/-- Model of `Limit` (`src/mcts.rs` lines 24-27).  Wall-clock limits
exist in the configuration but depend on real time, which the embedding
does not model; the driver below only runs under a rollout limit. -/
inductive Limit where
  | time (ms : ℕ) : Limit
  | rollouts (n : ℕ) : Limit
deriving DecidableEq, Repr

/-- Model of `Behaviour` (`src/mcts.rs` lines 115-126); the printing
flags (`debug`, `readout`, `log`) only drive I/O and are omitted. -/
structure Behaviour where
  limit : Limit
  rootParallelismCount : ℕ
  rolloutPolicy : RolloutPolicy
  expFactor : ℚ
  training : Bool
deriving DecidableEq, Repr

/-- The `side` field of `SearchInfo` as set by `MCTS::new`
(`src/mcts.rs` line 318): always `1`; no code path of `search`
reassigns it. -/
def MCTS_new_side : ℤ := 1

/-- The per-search mutable state: the tree and the cursors into the two
randomness streams (`fastrand::Rng` and `rand::thread_rng`). -/
structure SState (S M : Type) where
  tree : SearchTree S M
  fi : ℕ
  ti : ℕ
deriving DecidableEq

/-- Model of `SearchResults<G>` (`src/mcts.rs` lines 230-238). -/
structure SearchResults (S : Type) where
  rolloutDistribution : List ℕ
  newNode : S
  newNodeIdx : ℕ
  rollouts : ℕ
  winRate : ℚ
deriving DecidableEq

/-- The four base rollout policies as dispatched by the
`MetaAggregated` arm of `simulate` (`src/mcts.rs` lines 539-553); the
cutoff and nested variants hit the source's `panic` arms. -/
def runBasePolicy (G : GameI) (P : Prims) (pol : RolloutPolicy) (rolloutFuel : ℕ)
    (f : ℕ → ℕ) (fi : ℕ) (board : G.State) : Except EngineErr (ℚ × ℕ) :=
  match pol with
  | .Random => randomRollout G rolloutFuel f fi board
  | .Decisive => decisiveRollout G rolloutFuel f fi board
  | .RandomQualityScaled => randomRolloutQs G P rolloutFuel f fi 1 board
  | .DecisiveQualityScaled => decisiveRolloutQs G P rolloutFuel f fi 1 board
  | _ => .error .panicked

/-- The accumulation loop of the `MetaAggregated` arm: run the base
policy from a clone of the board the given number of times, summing the
results. -/
def metaLoop (G : GameI) (P : Prims) (pol : RolloutPolicy) (rolloutFuel : ℕ) (f : ℕ → ℕ)
    (board : G.State) : ℕ → ℕ → ℚ → Except EngineErr (ℚ × ℕ)
  | 0, fi, sum => .ok (sum, fi)
  | k + 1, fi, sum =>
    match runBasePolicy G P pol rolloutFuel f fi board with
    | .error e => .error e
    | .ok (q, fi') => metaLoop G P pol rolloutFuel f board k fi' (sum + q)

/-- Model of `MCTS::simulate` (`src/mcts.rs` lines 512-562).  First the
immediate-loss short-circuit: if the working state's evaluation equals
`-side` (with `side` the fixed `SearchInfo.side`), write the `N_INF`
sentinel into the parent's value (the `expect` aborts when the node is
the root) and return the evaluation.  Otherwise dispatch the configured
rollout policy; the `MetaAggregated` arm selects the base rollout
function (aborting on cutoff or nested inners), runs it `rollouts` times
from clones, and divides the summed result.  (For `rollouts = 0` Rust
computes `0.0 / 0.0 = NaN`, which the downstream `update` assert turns
into an abort; the rational model returns `0` — no claim involves a
zero-count meta policy.)  Returns the rollout value, the tree, and the
advanced stream cursors. -/
def simulate (G : GameI) (P : Prims) (flags : Behaviour) (side : ℤ) (f t : ℕ → ℕ)
    (rolloutFuel : ℕ) (tree : SearchTree G.State G.Move) (nodeIdx : ℕ)
    (rolloutBoard : G.State) (fi ti : ℕ) :
    Except EngineErr (ℚ × SearchTree G.State G.Move × ℕ × ℕ) :=
  match tree.nodes.get? nodeIdx with
  | none => .error .panicked
  | some node =>
    if G.evaluate rolloutBoard = -side then
      match node.parent with
      | none => .error .panicked
      | some parentIdx =>
        match tree.nodes.get? parentIdx with
        | none => .error .panicked
        | some pnode =>
          .ok (((G.evaluate rolloutBoard : ℚ)),
               tree.setNode parentIdx (pnode.setWinScore N_INF), fi, ti)
    else
      match flags.rolloutPolicy with
      | .Random =>
        match randomRollout G rolloutFuel f fi rolloutBoard with
        | .error e => .error e
        | .ok (q, fi') => .ok (q, tree, fi', ti)
      | .Decisive =>
        match decisiveRollout G rolloutFuel f fi rolloutBoard with
        | .error e => .error e
        | .ok (q, fi') => .ok (q, tree, fi', ti)
      | .RandomQualityScaled =>
        match randomRolloutQs G P rolloutFuel f fi 1 rolloutBoard with
        | .error e => .error e
        | .ok (q, fi') => .ok (q, tree, fi', ti)
      | .DecisiveQualityScaled =>
        match decisiveRolloutQs G P rolloutFuel f fi 1 rolloutBoard with
        | .error e => .error e
        | .ok (q, fi') => .ok (q, tree, fi', ti)
      | .RandomCutoff moves =>
        match randomRolloutCutoff G rolloutFuel f fi 1 moves rolloutBoard with
        | .error e => .error e
        | .ok (q, fi') => .ok (q, tree, fi', ti)
      | .DecisiveCutoff moves =>
        match decisiveRolloutCutoff G rolloutFuel t ti 1 moves rolloutBoard with
        | .error e => .error e
        | .ok (q, ti') => .ok (q, tree, fi, ti')
      | .MetaAggregated pol rollouts =>
        match pol with
        | .RandomCutoff _ => .error .panicked
        | .DecisiveCutoff _ => .error .panicked
        | .MetaAggregated _ _ => .error .panicked
        | _ =>
          match metaLoop G P pol rolloutFuel f rolloutBoard rollouts fi 0 with
          | .error e => .error e
          | .ok (sum, fi') => .ok (sum / (rollouts : ℚ), tree, fi', ti)

/-- Model of `MCTS::select` (`src/mcts.rs` lines 567-587): starting at
the root with a clone of the root state, repeatedly pick
`ucb::best` over the child slice, push the chosen child's inbound edge
onto the traversing state, and descend until a childless node.  The
slice `&tree.nodes[children]` aborts when the child range exceeds the
arena.  The fuel is instantiated with the arena size by the caller;
select strictly increases the index each step (see the termination
theorem), so that fuel never runs out on trees built by this engine. -/
def selectLoop (G : GameI) (P : Prims) (expFactor : ℚ) (t : SearchTree G.State G.Move) :
    ℕ → ℕ → G.State → Except EngineErr (ℕ × G.State)
  | 0, _, _ => .error .fuel
  | fuel + 1, idx, state =>
    match t.nodes.get? idx with
    | none => .error .panicked
    | some node =>
      if node.hasChildren then
        if t.nodes.length < node.firstChild + node.nChildren then .error .panicked
        else
          let slice := (t.nodes.drop node.firstChild).take node.nChildren
          let idx2 := ucbBest G P state slice node.visits expFactor + node.firstChild
          match t.nodes.get? idx2 with
          | none => .error .panicked
          | some child => selectLoop G P expFactor t fuel idx2 (G.push state child.inboundEdge)
      else .ok (idx, state)

/-- Model of `MCTS::backprop` (`src/mcts.rs` lines 499-509): from the
given node, `update` and follow the parent links until the parentless
root.  The fuel is instantiated with the arena size by the caller;
parent links strictly decrease (see the termination theorem). -/
def backprop {S M : Type} (q : ℚ) : ℕ → SearchTree S M → ℕ → Except EngineErr (SearchTree S M)
  | 0, _, _ => .error .fuel
  | fuel + 1, t, idx =>
    match t.nodes.get? idx with
    | none => .error .panicked
    | some node =>
      match node.update q with
      | .error e => .error e
      | .ok node' =>
        match node'.parent with
        | some p => backprop q fuel (t.setNode idx node') p
        | none => .ok (t.setNode idx node')

/-- Model of `MCTS::select_expand_simulate_backpropagate`
(`src/mcts.rs` lines 471-496): select a frontier node while pushing
moves onto a clone of the root state; expand it when the traversing
state is not terminal; pick a uniformly random child of the (re-read)
node as simulation start if it has children (`Node::random_child`,
drawing from the thread stream), else the node itself; simulate (note:
the source does NOT push the chosen child's edge before simulating);
backpropagate the result from the simulation start. -/
def sesb (G : GameI) (P : Prims) (flags : Behaviour) (side : ℤ) (f t : ℕ → ℕ)
    (rolloutFuel : ℕ) (root : G.State) (st : SState G.State G.Move) :
    Except EngineErr (SState G.State G.Move) :=
  match selectLoop G P flags.expFactor st.tree st.tree.nodes.length ROOT_IDX root with
  | .error e => .error e
  | .ok (promisingIdx, travState) =>
    match (if G.isTerminal travState then .ok st.tree
           else SearchTree.expand G st.tree promisingIdx travState) with
    | .error e => .error e
    | .ok tree1 =>
      match tree1.nodes.get? promisingIdx with
      | none => .error .panicked
      | some node =>
        let nodeToExplore := if node.hasChildren then node.randomChild (t st.ti) else promisingIdx
        let ti1 := if node.hasChildren then st.ti + 1 else st.ti
        match simulate G P flags side f t rolloutFuel tree1 nodeToExplore travState st.fi ti1 with
        | .error e => .error e
        | .ok (q, tree2, fi2, ti2) =>
          match backprop q tree2.nodes.length tree2 nodeToExplore with
          | .error e => .error e
          | .ok tree3 => .ok ⟨tree3, fi2, ti2⟩

/-- The iteration loop of `do_treesearch` (`src/mcts.rs` lines 409-462)
under `Limit::Rollouts(n)`: while the rollout counter has not reached
`n`, run one SESB and increment the counter.  The counter rises by one
per iteration, so fuel `n` (supplied by `searchFull`) exactly covers the
loop; the printing branches of the source are I/O only. -/
def searchLoop (G : GameI) (P : Prims) (flags : Behaviour) (side : ℤ) (f t : ℕ → ℕ)
    (rolloutFuel : ℕ) (root : G.State) (n : ℕ) :
    ℕ → SState G.State G.Move → Except EngineErr (SState G.State G.Move)
  | 0, st => if n ≤ st.tree.rollouts then .ok st else .error .fuel
  | fuel + 1, st =>
    if n ≤ st.tree.rollouts then .ok st
    else
      match sesb G P flags side f t rolloutFuel root st with
      | .error e => .error e
      | .ok st' => searchLoop G P flags side f t rolloutFuel root n fuel
          { st' with tree := st'.tree.incRollouts }

/-- The scan underlying the inference-mode move choice (`src/mcts.rs`
lines 351-357): `max_by_key` over the visit counts — the LAST maximal
count wins. -/
def distFold : List ℕ → ℕ → ℕ → ℕ → ℕ
  | [], _, _, bestIdx => bestIdx
  | c :: rest, i, bestCount, bestIdx =>
    if bestCount ≤ c then distFold rest (i + 1) c i else distFold rest (i + 1) bestCount bestIdx

/-- The inference-mode argmax (`.max_by_key(..).unwrap()`): `none` on an
empty distribution, where the source aborts. -/
def distArgmaxLast : List ℕ → Option ℕ
  | [] => none
  | c :: rest => some (distFold rest 1 c 0)

/-- The cumulative-probability scan of `sample_move_index_from_rollouts`
(`src/mcts.rs` lines 716-724): the first index whose cumulative
probability reaches the drawn float wins; if none does, the initial
`choice = 0` remains. -/
def sampleScan (rfloat : ℚ) : List ℚ → ℕ → ℚ → ℕ
  | [], _, _ => 0
  | p :: rest, i, cum =>
    if rfloat ≤ cum + p then i else sampleScan rfloat rest (i + 1) (cum + p)

/-- Model of `sample_move_index_from_rollouts` (`src/mcts.rs` lines
703-726): flatten the empirical distribution with
`0.7 · visits/total + 0.3 · uniform` and sample by the cumulative scan;
`rfloat` stands for the `thread_rng().gen_range(0.0..1.0)` draw. -/
def sampleMoveIndexFromRollouts (dist : List ℕ) (rfloat : ℚ) : ℕ :=
  sampleScan rfloat
    (dist.map fun c => ((c : ℚ) / (dist.sum : ℚ)) * (7/10) + (1 / (dist.length : ℚ)) * (3/10))
    0 0

/-- Model of `MCTS::search` (`src/mcts.rs` lines 331-373), returning the
final search state alongside the `SearchResults` so the tree invariants
can be stated.  The engine is freshly constructed (`MCTS::new`): the
tree starts from `setup`, `side = MCTS_new_side`, and both stream
cursors at zero.  After the loop: collect the root visit distribution,
read the root win rate, check the rollout-count assert, choose the move
(training: thread-float sampling; inference: last-argmax by visits,
aborting on an empty distribution), and push the chosen child's inbound
edge onto the root state.  `f`/`t` are the engine and thread draw
streams, `tq` the thread float stream, `rolloutFuel` bounds individual
rollouts, and `capacity` is `NODEPOOL_SIZE`. -/
def searchFull (G : GameI) (P : Prims) (flags : Behaviour) (f t : ℕ → ℕ) (tq : ℕ → ℚ)
    (rolloutFuel capacity : ℕ) (board : G.State) :
    Except EngineErr (SearchResults G.State × SState G.State G.Move) :=
  match flags.limit with
  | .time _ => .error .fuel
  | .rollouts n =>
    match searchLoop G P flags MCTS_new_side f t rolloutFuel board n n
        ⟨(SearchTree.withCapacity G.State G.Move capacity).setup G board, 0, 0⟩ with
    | .error e => .error e
    | .ok st =>
      match st.tree.rootRolloutDistribution with
      | .error e => .error e
      | .ok dist =>
        match st.tree.nodes.get? ROOT_IDX with
        | none => .error .panicked
        | some root0 =>
          if st.tree.rollouts ≠ n * flags.rootParallelismCount then .error .panicked
          else
            match (if flags.training then .ok (sampleMoveIndexFromRollouts dist (tq st.ti))
                   else match distArgmaxLast dist with
                        | none => .error .panicked
                        | some best => .ok best : Except EngineErr ℕ) with
            | .error e => .error e
            | .ok moveChosen =>
              match st.tree.nodes.get? (moveChosen + root0.firstChild) with
              | none => .error .panicked
              | some chosen =>
                .ok ({ rolloutDistribution := dist,
                       newNode := G.push board chosen.inboundEdge,
                       newNodeIdx := moveChosen + root0.firstChild,
                       rollouts := st.tree.rollouts,
                       winRate := root0.winRate }, st)

/-! ## Structural invariants of the arena

`WFTree` is the shape invariant maintained by `setup` and `expand`: the
arena is nonempty, the root (index 0) is the unique parentless node,
parents strictly precede their children, and every child range starts
beyond its node, stays inside the arena, and its members point back to
the node. -/

/-- The visit count stored at a slot (`0` outside the arena). -/
def visitsAt {S M : Type} (t : SearchTree S M) (j : ℕ) : ℕ :=
  ((t.nodes.get? j).map Node.visits).getD 0

/-- The parent link stored at a slot. -/
def parentAt {S M : Type} (t : SearchTree S M) (j : ℕ) : Option ℕ :=
  (t.nodes.get? j).bind Node.parent

/-- Total visits over the child range starting at `a` of length `k`. -/
def sumVisits {S M : Type} (t : SearchTree S M) (a k : ℕ) : ℕ :=
  ((List.range k).map fun j => visitsAt t (a + j)).sum

/-- Arena well-formedness (see the section comment). -/
def WFTree {S M : Type} (t : SearchTree S M) : Prop :=
  t.nodes ≠ []
  ∧ (∀ i n, t.nodes.get? i = some n → (n.parent = none ↔ i = 0))
  ∧ (∀ i n p, t.nodes.get? i = some n → n.parent = some p → p < i)
  ∧ (∀ i n, t.nodes.get? i = some n → n.nChildren ≠ 0 →
      i < n.firstChild ∧ n.firstChild + n.nChildren ≤ t.nodes.length
      ∧ ∀ j, n.firstChild ≤ j → j < n.firstChild + n.nChildren →
          ∃ c, t.nodes.get? j = some c ∧ c.parent = some i)
  ∧ (∀ j c p, t.nodes.get? j = some c → c.parent = some p →
      ∃ pn, t.nodes.get? p = some pn ∧ pn.firstChild ≤ j ∧ j < pn.firstChild + pn.nChildren)

theorem update_ok_fields {S M : Type} {n n' : Node S M} {q : ℚ}
    (h : n.update q = .ok n') :
    n'.parent = n.parent ∧ n'.firstChild = n.firstChild ∧ n'.nChildren = n.nChildren
      ∧ n'.visits = n.visits + 1 ∧ n'.board = n.board ∧ n'.inboundEdge = n.inboundEdge
      ∧ n'.perspective = n.perspective := by
  rw [Node.update] at h
  split_ifs at h <;>
    first
      | exact (Except.noConfusion h)
      | (rw [Except.ok.injEq] at h
         subst h
         exact ⟨rfl, rfl, rfl, rfl, rfl, rfl, rfl⟩)

theorem setup_WF (G : GameI) (t : SearchTree G.State G.Move) (root : G.State) :
    WFTree (t.setup G root) := by
  refine ⟨by simp [SearchTree.setup], ?_, ?_, ?_, ?_⟩
  · intro i n h
    simp [SearchTree.setup, List.get?] at h
    cases i with
    | zero =>
      simp at h
      subst h
      simp [Node.new]
    | succ i => simp at h
  · intro i n p h hp
    simp [SearchTree.setup] at h
    cases i with
    | zero =>
      simp at h
      subst h
      simp [Node.new] at hp
    | succ i => simp at h
  · intro i n h hn
    simp [SearchTree.setup] at h
    cases i with
    | zero =>
      simp at h
      subst h
      simp [Node.new] at hn
    | succ i => simp at h
  · intro j c p h hp
    simp [SearchTree.setup] at h
    cases j with
    | zero =>
      simp at h
      subst h
      simp [Node.new] at hp
    | succ j => simp at h
theorem expand_spec {G : GameI} {t : SearchTree G.State G.Move} {idx : ℕ}
    {node : Node G.State G.Move} {board : G.State} {t' : SearchTree G.State G.Move}
    (hget : t.nodes.get? idx = some node)
    (hok : SearchTree.expand G t idx board = .ok t') :
    node.nChildren = 0
    ∧ t'.nodes.length = t.nodes.length + (G.legalMoves board).length
    ∧ t'.nodes.get? idx =
        some (node.addChildren t.nodes.length (G.legalMoves board).length)
    ∧ (∀ j, j ≠ idx → j < t.nodes.length → t'.nodes.get? j = t.nodes.get? j)
    ∧ (∀ d, d < (G.legalMoves board).length →
        ∃ m, t'.nodes.get? (t.nodes.length + d) =
          some (Node.new G (G.push board m) (some idx) m))
    ∧ t'.rollouts = t.rollouts := by
  have hidx : idx < t.nodes.length := by
    by_contra hcon
    rw [List.get?_len_le (by omega)] at hget
    exact (Option.noConfusion hget)
  simp only [SearchTree.expand, hget] at hok
  split_ifs at hok with hch hcap
  rw [Except.ok.injEq] at hok
  subst hok
  have hch0 : node.nChildren = 0 := by
    rw [Node.hasChildren] at hch
    simpa using hch
  have hlen : ((t.nodes ++ (G.legalMoves board).map
      (fun m => Node.new G (G.push board m) (some idx) m)).set idx
        (node.addChildren t.nodes.length (G.legalMoves board).length)).length
      = t.nodes.length + (G.legalMoves board).length := by
    simp
  refine ⟨hch0, hlen, ?_, ?_, ?_, rfl⟩
  · rw [List.get?_set_eq_of_lt _ (by simp; omega)]
  · intro j hne hj
    rw [List.get?_set_ne _ _ (Ne.symm hne), List.get?_append hj]
  · intro d hd
    refine ⟨(G.legalMoves board).getD d G.defaultMove, ?_⟩
    have hge : t.nodes.length ≤ t.nodes.length + d := by omega
    rw [List.get?_set_ne _ _ (by omega), List.get?_append_right hge]
    have hsub : t.nodes.length + d - t.nodes.length = d := by omega
    rw [hsub, List.get?_map]
    have hsome : (G.legalMoves board).get? d =
        some ((G.legalMoves board).getD d G.defaultMove) := by
      rw [List.get?_eq_getElem?, List.getElem?_eq_getElem hd,
        List.getD_eq_getElem _ _ hd]
    rw [hsome]
    rfl
theorem expand_WF {G : GameI} {t : SearchTree G.State G.Move} {idx : ℕ}
    {node : Node G.State G.Move} {board : G.State} {t' : SearchTree G.State G.Move}
    (hWF : WFTree t) (hget : t.nodes.get? idx = some node)
    (hok : SearchTree.expand G t idx board = .ok t') : WFTree t' := by
  obtain ⟨hch0, hlen, hat, hold, hnew, -⟩ := expand_spec hget hok
  have hidx : idx < t.nodes.length := by
    by_contra hcon
    rw [List.get?_len_le (by omega)] at hget
    exact (Option.noConfusion hget)
  have hL0 : 0 < t.nodes.length := by
    cases hnil : t.nodes with
    | nil => exact absurd hnil hWF.1
    | cons a l => simp [hnil]
  have haccess : ∀ j c, t'.nodes.get? j = some c →
      (j = idx ∧ c = node.addChildren t.nodes.length (G.legalMoves board).length)
      ∨ (j ≠ idx ∧ j < t.nodes.length ∧ t.nodes.get? j = some c)
      ∨ (t.nodes.length ≤ j ∧ j < t.nodes.length + (G.legalMoves board).length
          ∧ ∃ m, c = Node.new G (G.push board m) (some idx) m) := by
    intro j c hc
    by_cases hj : j = idx
    · subst hj
      rw [hat, Option.some.injEq] at hc
      exact Or.inl ⟨rfl, hc.symm⟩
    · by_cases hjL : j < t.nodes.length
      · exact Or.inr (Or.inl ⟨hj, hjL, by rw [← hold j hj hjL]; exact hc⟩)
      · by_cases hjK : j < t.nodes.length + (G.legalMoves board).length
        · obtain ⟨m, hm⟩ := hnew (j - t.nodes.length) (by omega)
          have : t.nodes.length + (j - t.nodes.length) = j := by omega
          rw [this] at hm
          rw [hm, Option.some.injEq] at hc
          exact Or.inr (Or.inr ⟨by omega, hjK, m, hc.symm⟩)
        · rw [List.get?_len_le (by omega)] at hc
          exact (Option.noConfusion hc)
  obtain ⟨-, hroot, hlt, hrange, hback⟩ := hWF
  refine ⟨?_, ?_, ?_, ?_, ?_⟩
  · intro hnil
    have : t'.nodes.length = 0 := by rw [hnil]; rfl
    omega
  · intro i n hn
    rcases haccess i n hn with ⟨rfl, rfl⟩ | ⟨hi, hiL, hc⟩ | ⟨hiL, hiK, m, rfl⟩
    · simpa [Node.addChildren] using hroot i node hget
    · exact hroot i n hc
    · constructor
      · intro hc
        simp [Node.new] at hc
      · intro hc
        omega
  · intro i n p hn hp
    rcases haccess i n hn with ⟨rfl, rfl⟩ | ⟨hi, hiL, hc⟩ | ⟨hiL, hiK, m, rfl⟩
    · simp only [Node.addChildren] at hp
      exact hlt i node p hget hp
    · exact hlt i n p hc hp
    · simp only [Node.new, Option.some.injEq] at hp
      omega
  · intro i n hn hnch
    rcases haccess i n hn with ⟨rfl, rfl⟩ | ⟨hi, hiL, hc⟩ | ⟨hiL, hiK, m, rfl⟩
    · simp only [Node.addChildren] at hnch ⊢
      refine ⟨hidx, by omega, ?_⟩
      intro j hj1 hj2
      obtain ⟨m, hm⟩ := hnew (j - t.nodes.length) (by omega)
      have hjeq : t.nodes.length + (j - t.nodes.length) = j := by omega
      rw [hjeq] at hm
      exact ⟨_, hm, by simp [Node.new]⟩
    · obtain ⟨h1, h2, h3⟩ := hrange i n hc hnch
      refine ⟨h1, by omega, ?_⟩
      intro j hj1 hj2
      obtain ⟨c, hcj, hcp⟩ := h3 j hj1 hj2
      by_cases hjidx : j = idx
      · subst hjidx
        rw [hget, Option.some.injEq] at hcj
        subst hcj
        exact ⟨_, hat, by simpa [Node.addChildren] using hcp⟩
      · exact ⟨c, by rw [hold j hjidx (by omega)]; exact hcj, hcp⟩
    · simp [Node.new] at hnch
  · intro j c p hj hp
    rcases haccess j c hj with ⟨rfl, rfl⟩ | ⟨hi, hiL, hc⟩ | ⟨hiL, hiK, m, rfl⟩
    · simp only [Node.addChildren] at hp
      obtain ⟨pn, hpn, hb1, hb2⟩ := hback j node p hget hp
      have hpidx : p < j := hlt j node p hget hp
      refine ⟨pn, ?_, hb1, hb2⟩
      rw [hold p (by omega) (by omega)]
      exact hpn
    · obtain ⟨pn, hpn, hb1, hb2⟩ := hback j c p hc hp
      by_cases hpidx : p = idx
      · subst hpidx
        rw [hget, Option.some.injEq] at hpn
        subst hpn
        omega
      · refine ⟨pn, ?_, hb1, hb2⟩
        have hpL : p < t.nodes.length := by
          by_contra hcon
          rw [List.get?_len_le (by omega)] at hpn
          exact (Option.noConfusion hpn)
        rw [hold p hpidx hpL]
        exact hpn
    · simp only [Node.new, Option.some.injEq] at hp
      subst hp
      refine ⟨node.addChildren t.nodes.length (G.legalMoves board).length, hat, ?_, ?_⟩
      · simp [Node.addChildren]
        omega
      · simp [Node.addChildren]
        omega

theorem get?_some_lt {S M : Type} {t : SearchTree S M} {i : ℕ} {n : Node S M}
    (h : t.nodes.get? i = some n) : i < t.nodes.length := by
  by_contra hcon
  rw [List.get?_len_le (by omega)] at h
  exact (Option.noConfusion h)

theorem setNode_get?_eq {S M : Type} {t : SearchTree S M} {x : ℕ} {n n' : Node S M}
    (hx : t.nodes.get? x = some n) :
    (t.setNode x n').nodes.get? x = some n' := by
  rw [SearchTree.setNode]
  exact List.get?_set_eq_of_lt _ (get?_some_lt hx)

theorem setNode_get?_ne {S M : Type} (t : SearchTree S M) (x : ℕ) (n' : Node S M)
    {j : ℕ} (hj : j ≠ x) :
    (t.setNode x n').nodes.get? j = t.nodes.get? j := by
  rw [SearchTree.setNode]
  exact List.get?_set_ne _ _ (Ne.symm hj)

theorem setNode_length {S M : Type} (t : SearchTree S M) (x : ℕ) (n' : Node S M) :
    (t.setNode x n').nodes.length = t.nodes.length := by
  simp [SearchTree.setNode]

theorem setNode_rollouts {S M : Type} (t : SearchTree S M) (x : ℕ) (n' : Node S M) :
    (t.setNode x n').rollouts = t.rollouts := by
  simp [SearchTree.setNode]

theorem visitsAt_setNode {S M : Type} {t : SearchTree S M} {x : ℕ} {n n' : Node S M}
    (hx : t.nodes.get? x = some n) (j : ℕ) :
    visitsAt (t.setNode x n') j = if j = x then n'.visits else visitsAt t j := by
  by_cases hj : j = x
  · subst hj
    rw [if_pos rfl, visitsAt, setNode_get?_eq hx]
    rfl
  · rw [if_neg hj, visitsAt, setNode_get?_ne t x n' hj, visitsAt]

theorem parentAt_setNode {S M : Type} {t : SearchTree S M} {x : ℕ} {n n' : Node S M}
    (hx : t.nodes.get? x = some n) (hpar : n'.parent = n.parent) (j : ℕ) :
    parentAt (t.setNode x n') j = parentAt t j := by
  by_cases hj : j = x
  · subst hj
    rw [parentAt, setNode_get?_eq hx, parentAt, hx]
    simp [hpar]
  · rw [parentAt, setNode_get?_ne t x n' hj, parentAt]

theorem sumVisits_shift {S M : Type} (t : SearchTree S M) (a k : ℕ) :
    sumVisits t a (k + 1) = sumVisits t a k + visitsAt t (a + k) := by
  rw [sumVisits, sumVisits, List.range_succ]
  simp

theorem sumVisits_setNode {S M : Type} {t : SearchTree S M} {x : ℕ} {n n' : Node S M}
    (hx : t.nodes.get? x = some n) (hv : n'.visits = n.visits + 1) (a k : ℕ) :
    sumVisits (t.setNode x n') a k
      = sumVisits t a k + (if a ≤ x ∧ x < a + k then 1 else 0) := by
  induction k with
  | zero =>
    have : ¬(a ≤ x ∧ x < a) := by omega
    simp [sumVisits, this]
  | succ k ih =>
    rw [sumVisits_shift, sumVisits_shift, ih, visitsAt_setNode hx]
    have hvx : visitsAt t x = n.visits := by rw [visitsAt, hx]; rfl
    by_cases hax : a + k = x
    · rw [if_pos hax]
      have h1 : ¬(a ≤ x ∧ x < a + k) := by omega
      have h2 : a ≤ x ∧ x < a + (k + 1) := by omega
      rw [if_neg h1, if_pos h2, hv, hax, hvx]
      omega
    · rw [if_neg hax]
      by_cases h1 : a ≤ x ∧ x < a + k
      · have h2 : a ≤ x ∧ x < a + (k + 1) := by omega
        rw [if_pos h1, if_pos h2]
        omega
      · have h2 : ¬(a ≤ x ∧ x < a + (k + 1)) := by omega
        rw [if_neg h1, if_neg h2]
        omega

/-- Two arenas with the same length, rollout counter, and per-slot
shape (parent, child range, visits); node values and boards may
differ.  Backprop-free tree writes (`set_win_score`) and whole rollout
phases preserve this relation. -/
def sameShape {S M : Type} (t t' : SearchTree S M) : Prop :=
  t'.nodes.length = t.nodes.length
  ∧ t'.rollouts = t.rollouts
  ∧ ∀ j n', t'.nodes.get? j = some n' →
      ∃ n, t.nodes.get? j = some n ∧ n'.parent = n.parent
        ∧ n'.firstChild = n.firstChild ∧ n'.nChildren = n.nChildren ∧ n'.visits = n.visits

theorem sameShape_refl {S M : Type} (t : SearchTree S M) : sameShape t t :=
  ⟨rfl, rfl, fun j n' h => ⟨n', h, rfl, rfl, rfl, rfl⟩⟩

theorem sameShape_get?_rev {S M : Type} {t t' : SearchTree S M} (h : sameShape t t')
    {j : ℕ} {n : Node S M} (hn : t.nodes.get? j = some n) :
    ∃ n', t'.nodes.get? j = some n' ∧ n'.parent = n.parent
      ∧ n'.firstChild = n.firstChild ∧ n'.nChildren = n.nChildren ∧ n'.visits = n.visits := by
  have hj : j < t'.nodes.length := by rw [h.1]; exact get?_some_lt hn
  cases hn' : t'.nodes.get? j with
  | none =>
    simp only [List.get?_eq_getElem?, List.getElem?_eq_getElem hj] at hn'
    exact (Option.noConfusion hn')
  | some n' =>
    obtain ⟨n2, hn2, hp, hf, hc, hv⟩ := h.2.2 j n' hn'
    rw [hn] at hn2
    rw [Option.some.injEq] at hn2
    subst hn2
    exact ⟨n', rfl, hp, hf, hc, hv⟩

theorem sameShape_visitsAt {S M : Type} {t t' : SearchTree S M} (h : sameShape t t')
    (j : ℕ) : visitsAt t' j = visitsAt t j := by
  cases hn' : t'.nodes.get? j with
  | none =>
    have hj : t'.nodes.length ≤ j := by
      by_contra hcon
      rw [List.get?_eq_getElem?, List.getElem?_eq_getElem (by omega)] at hn'
      exact (Option.noConfusion hn')
    have hj2 : t.nodes.length ≤ j := by rw [← h.1]; exact hj
    rw [visitsAt, hn', visitsAt, List.get?_len_le hj2]
  | some n' =>
    obtain ⟨n, hn, -, -, -, hv⟩ := h.2.2 j n' hn'
    rw [visitsAt, hn', visitsAt, hn]
    simpa using hv

theorem sameShape_sumVisits {S M : Type} {t t' : SearchTree S M} (h : sameShape t t')
    (a k : ℕ) : sumVisits t' a k = sumVisits t a k := by
  rw [sumVisits, sumVisits]
  congr 1
  exact List.map_congr_left fun j _ => sameShape_visitsAt h _

/-- Like `sameShape` but with visit counts free: what backprop
preserves. -/
def sameStruct {S M : Type} (t t' : SearchTree S M) : Prop :=
  t'.nodes.length = t.nodes.length
  ∧ ∀ j n', t'.nodes.get? j = some n' →
      ∃ n, t.nodes.get? j = some n ∧ n'.parent = n.parent
        ∧ n'.firstChild = n.firstChild ∧ n'.nChildren = n.nChildren

theorem sameShape_sameStruct {S M : Type} {t t' : SearchTree S M} (h : sameShape t t') :
    sameStruct t t' :=
  ⟨h.1, fun j n' hj => by
    obtain ⟨n, hn, h1, h2, h3, -⟩ := h.2.2 j n' hj
    exact ⟨n, hn, h1, h2, h3⟩⟩

theorem sameStruct_get?_rev {S M : Type} {t t' : SearchTree S M} (h : sameStruct t t')
    {j : ℕ} {n : Node S M} (hn : t.nodes.get? j = some n) :
    ∃ n', t'.nodes.get? j = some n' ∧ n'.parent = n.parent
      ∧ n'.firstChild = n.firstChild ∧ n'.nChildren = n.nChildren := by
  have hj : j < t'.nodes.length := by rw [h.1]; exact get?_some_lt hn
  cases hn' : t'.nodes.get? j with
  | none =>
    simp only [List.get?_eq_getElem?, List.getElem?_eq_getElem hj] at hn'
    exact (Option.noConfusion hn')
  | some n' =>
    obtain ⟨n2, hn2, hp, hf, hc⟩ := h.2 j n' hn'
    rw [hn] at hn2
    rw [Option.some.injEq] at hn2
    subst hn2
    exact ⟨n', rfl, hp, hf, hc⟩

theorem sameStruct_WF {S M : Type} {t t' : SearchTree S M} (h : sameStruct t t')
    (hWF : WFTree t) : WFTree t' := by
  obtain ⟨hne, hroot, hlt, hrange, hback⟩ := hWF
  refine ⟨?_, ?_, ?_, ?_, ?_⟩
  · intro hnil
    apply hne
    have h0 : t.nodes.length = 0 := by rw [← h.1, hnil]; rfl
    cases ht : t.nodes with
    | nil => rfl
    | cons a l => rw [ht] at h0; simp at h0
  · intro i n' hn'
    obtain ⟨n, hn, hp, -, -⟩ := h.2 i n' hn'
    rw [hp]
    exact hroot i n hn
  · intro i n' p hn' hp'
    obtain ⟨n, hn, hp, -, -⟩ := h.2 i n' hn'
    exact hlt i n p hn (by rw [← hp]; exact hp')
  · intro i n' hn' hnch
    obtain ⟨n, hn, hp, hf, hc⟩ := h.2 i n' hn'
    rw [hc] at hnch
    rw [hf, hc, h.1]
    obtain ⟨h1, h2, h3⟩ := hrange i n hn hnch
    refine ⟨h1, h2, ?_⟩
    intro j hj1 hj2
    obtain ⟨c, hcj, hcp⟩ := h3 j hj1 hj2
    obtain ⟨c', hc', hcp', -, -⟩ := sameStruct_get?_rev h hcj
    exact ⟨c', hc', by rw [hcp']; exact hcp⟩
  · intro j c' p hc' hp'
    obtain ⟨c, hc, hp, -, -⟩ := h.2 j c' hc'
    obtain ⟨pn, hpn, hb1, hb2⟩ := hback j c p hc (by rw [← hp]; exact hp')
    obtain ⟨pn', hpn', -, hf', hc2⟩ := sameStruct_get?_rev h hpn
    exact ⟨pn', hpn', by rw [hf']; exact hb1, by rw [hf', hc2]; exact hb2⟩

theorem sameShape_WF {S M : Type} {t t' : SearchTree S M} (h : sameShape t t')
    (hWF : WFTree t) : WFTree t' :=
  sameStruct_WF (sameShape_sameStruct h) hWF

theorem simulate_cases {G : GameI} {P : Prims} {flags : Behaviour} {side : ℤ} {f t : ℕ → ℕ}
    {rolloutFuel : ℕ} {tree : SearchTree G.State G.Move} {x : ℕ} {board : G.State}
    {fi ti : ℕ} {q : ℚ} {tree2 : SearchTree G.State G.Move} {fi2 ti2 : ℕ}
    (hok : simulate G P flags side f t rolloutFuel tree x board fi ti
      = .ok (q, tree2, fi2, ti2)) :
    (G.evaluate board ≠ -side ∧ tree2 = tree)
    ∨ (G.evaluate board = -side ∧ q = ((G.evaluate board : ℚ)) ∧ fi2 = fi ∧ ti2 = ti
        ∧ ∃ node pIdx pnode, tree.nodes.get? x = some node ∧ node.parent = some pIdx
            ∧ tree.nodes.get? pIdx = some pnode
            ∧ tree2 = tree.setNode pIdx (pnode.setWinScore N_INF)) := by
  rw [simulate] at hok
  cases hget : tree.nodes.get? x with
  | none => simp only [hget] at hok; exact (Except.noConfusion hok)
  | some node =>
    simp only [hget] at hok
    by_cases htrig : G.evaluate board = -side
    · rw [if_pos htrig] at hok
      cases hpar : node.parent with
      | none => simp only [hpar] at hok; exact (Except.noConfusion hok)
      | some pIdx =>
        simp only [hpar] at hok
        cases hpget : tree.nodes.get? pIdx with
        | none => simp only [hpget] at hok; exact (Except.noConfusion hok)
        | some pnode =>
          simp only [hpget] at hok
          rw [Except.ok.injEq] at hok
          simp only [Prod.mk.injEq] at hok
          obtain ⟨h1, h2, h3, h4⟩ := hok
          exact Or.inr ⟨htrig, h1.symm, h3.symm, h4.symm, node, pIdx, pnode, rfl, hpar,
            hpget, h2.symm⟩
    · rw [if_neg htrig] at hok
      refine Or.inl ⟨htrig, ?_⟩
      cases hpol : flags.rolloutPolicy with
      | Random =>
        simp only [hpol] at hok
        cases hr : randomRollout G rolloutFuel f fi board with
        | error e => simp only [hr] at hok; exact (Except.noConfusion hok)
        | ok r =>
          obtain ⟨q', fi'⟩ := r
          simp only [hr] at hok
          rw [Except.ok.injEq] at hok
          exact (congrArg (fun z => z.2.1) hok).symm
      | Decisive =>
        simp only [hpol] at hok
        cases hr : decisiveRollout G rolloutFuel f fi board with
        | error e => simp only [hr] at hok; exact (Except.noConfusion hok)
        | ok r =>
          obtain ⟨q', fi'⟩ := r
          simp only [hr] at hok
          rw [Except.ok.injEq] at hok
          exact (congrArg (fun z => z.2.1) hok).symm
      | RandomQualityScaled =>
        simp only [hpol] at hok
        cases hr : randomRolloutQs G P rolloutFuel f fi 1 board with
        | error e => simp only [hr] at hok; exact (Except.noConfusion hok)
        | ok r =>
          obtain ⟨q', fi'⟩ := r
          simp only [hr] at hok
          rw [Except.ok.injEq] at hok
          exact (congrArg (fun z => z.2.1) hok).symm
      | DecisiveQualityScaled =>
        simp only [hpol] at hok
        cases hr : decisiveRolloutQs G P rolloutFuel f fi 1 board with
        | error e => simp only [hr] at hok; exact (Except.noConfusion hok)
        | ok r =>
          obtain ⟨q', fi'⟩ := r
          simp only [hr] at hok
          rw [Except.ok.injEq] at hok
          exact (congrArg (fun z => z.2.1) hok).symm
      | RandomCutoff moves =>
        simp only [hpol] at hok
        cases hr : randomRolloutCutoff G rolloutFuel f fi 1 moves board with
        | error e => simp only [hr] at hok; exact (Except.noConfusion hok)
        | ok r =>
          obtain ⟨q', fi'⟩ := r
          simp only [hr] at hok
          rw [Except.ok.injEq] at hok
          exact (congrArg (fun z => z.2.1) hok).symm
      | DecisiveCutoff moves =>
        simp only [hpol] at hok
        cases hr : decisiveRolloutCutoff G rolloutFuel t ti 1 moves board with
        | error e => simp only [hr] at hok; exact (Except.noConfusion hok)
        | ok r =>
          obtain ⟨q', ti'⟩ := r
          simp only [hr] at hok
          rw [Except.ok.injEq] at hok
          exact (congrArg (fun z => z.2.1) hok).symm
      | MetaAggregated pol rollouts =>
        simp only [hpol] at hok
        cases pol with
        | RandomCutoff m => exact (Except.noConfusion hok)
        | DecisiveCutoff m => exact (Except.noConfusion hok)
        | MetaAggregated p2 r2 => exact (Except.noConfusion hok)
        | Random =>
          cases hr : metaLoop G P .Random rolloutFuel f board rollouts fi 0 with
          | error e => simp only [hr] at hok; exact (Except.noConfusion hok)
          | ok r =>
            obtain ⟨sum, fi'⟩ := r
            simp only [hr] at hok
            rw [Except.ok.injEq] at hok
            exact (congrArg (fun z => z.2.1) hok).symm
        | Decisive =>
          cases hr : metaLoop G P .Decisive rolloutFuel f board rollouts fi 0 with
          | error e => simp only [hr] at hok; exact (Except.noConfusion hok)
          | ok r =>
            obtain ⟨sum, fi'⟩ := r
            simp only [hr] at hok
            rw [Except.ok.injEq] at hok
            exact (congrArg (fun z => z.2.1) hok).symm
        | RandomQualityScaled =>
          cases hr : metaLoop G P .RandomQualityScaled rolloutFuel f board rollouts fi 0 with
          | error e => simp only [hr] at hok; exact (Except.noConfusion hok)
          | ok r =>
            obtain ⟨sum, fi'⟩ := r
            simp only [hr] at hok
            rw [Except.ok.injEq] at hok
            exact (congrArg (fun z => z.2.1) hok).symm
        | DecisiveQualityScaled =>
          cases hr : metaLoop G P .DecisiveQualityScaled rolloutFuel f board rollouts fi 0 with
          | error e => simp only [hr] at hok; exact (Except.noConfusion hok)
          | ok r =>
            obtain ⟨sum, fi'⟩ := r
            simp only [hr] at hok
            rw [Except.ok.injEq] at hok
            exact (congrArg (fun z => z.2.1) hok).symm

theorem sameStruct_trans {S M : Type} {t1 t2 t3 : SearchTree S M}
    (h12 : sameStruct t1 t2) (h23 : sameStruct t2 t3) : sameStruct t1 t3 := by
  refine ⟨h23.1.trans h12.1, ?_⟩
  intro j n3 h3
  obtain ⟨n2, h2, p23, f23, c23⟩ := h23.2 j n3 h3
  obtain ⟨n1, h1, p12, f12, c12⟩ := h12.2 j n2 h2
  exact ⟨n1, h1, p23.trans p12, f23.trans f12, c23.trans c12⟩

theorem sameStruct_setNode {S M : Type} {t : SearchTree S M} {x : ℕ} {n n' : Node S M}
    (hx : t.nodes.get? x = some n) (hp : n'.parent = n.parent)
    (hf : n'.firstChild = n.firstChild) (hc : n'.nChildren = n.nChildren) :
    sameStruct t (t.setNode x n') := by
  refine ⟨setNode_length t x n', ?_⟩
  intro j m hj
  by_cases hjx : j = x
  · subst hjx
    rw [setNode_get?_eq hx, Option.some.injEq] at hj
    subst hj
    exact ⟨n, hx, hp, hf, hc⟩
  · rw [setNode_get?_ne t x n' hjx] at hj
    exact ⟨m, hj, rfl, rfl, rfl⟩

theorem sameShape_setNode {S M : Type} {t : SearchTree S M} {x : ℕ} {n n' : Node S M}
    (hx : t.nodes.get? x = some n) (hp : n'.parent = n.parent)
    (hf : n'.firstChild = n.firstChild) (hc : n'.nChildren = n.nChildren)
    (hv : n'.visits = n.visits) :
    sameShape t (t.setNode x n') := by
  refine ⟨setNode_length t x n', setNode_rollouts t x n', ?_⟩
  intro j m hj
  by_cases hjx : j = x
  · subst hjx
    rw [setNode_get?_eq hx, Option.some.injEq] at hj
    subst hj
    exact ⟨n, hx, hp, hf, hc, hv⟩
  · rw [setNode_get?_ne t x n' hjx] at hj
    exact ⟨m, hj, rfl, rfl, rfl, rfl⟩

theorem simulate_shape {G : GameI} {P : Prims} {flags : Behaviour} {side : ℤ} {f t : ℕ → ℕ}
    {rolloutFuel : ℕ} {tree : SearchTree G.State G.Move} {x : ℕ} {board : G.State}
    {fi ti : ℕ} {q : ℚ} {tree2 : SearchTree G.State G.Move} {fi2 ti2 : ℕ}
    (hok : simulate G P flags side f t rolloutFuel tree x board fi ti
      = .ok (q, tree2, fi2, ti2)) : sameShape tree tree2 := by
  rcases simulate_cases hok with ⟨-, rfl⟩ | ⟨-, -, -, -, node, pIdx, pnode, -, -, hpget, rfl⟩
  · exact sameShape_refl _
  · exact sameShape_setNode hpget rfl rfl rfl rfl

theorem update_error_panicked {S M : Type} {n : Node S M} {q : ℚ} {e : EngineErr}
    (h : n.update q = .error e) : e = .panicked := by
  rw [Node.update] at h
  split_ifs at h <;>
    first
      | (rw [Except.error.injEq] at h; exact h.symm)
      | exact (Except.noConfusion h)

theorem backprop_struct {S M : Type} (q : ℚ) :
    ∀ (fuel : ℕ) (t : SearchTree S M) (idx : ℕ) (t' : SearchTree S M),
      backprop q fuel t idx = .ok t' → sameStruct t t' := by
  intro fuel
  induction fuel with
  | zero => intro t idx t' h; exact (Except.noConfusion h)
  | succ fuel ih =>
    intro t idx t' h
    rw [backprop] at h
    cases hget : t.nodes.get? idx with
    | none => rw [hget] at h; exact (Except.noConfusion h)
    | some n =>
      simp only [hget] at h
      cases hupd : n.update q with
      | error e => simp only [hupd] at h; exact (Except.noConfusion h)
      | ok n' =>
        simp only [hupd] at h
        obtain ⟨hp, hf, hc, -, -, -, -⟩ := update_ok_fields hupd
        have hstep : sameStruct t (t.setNode idx n') := sameStruct_setNode hget hp hf hc
        cases hpar : n'.parent with
        | none => simp only [hpar] at h; rw [Except.ok.injEq] at h; subst h; exact hstep
        | some p =>
          simp only [hpar] at h
          exact sameStruct_trans hstep (ih (t.setNode idx n') p t' h)

theorem backprop_no_fuel {S M : Type} (q : ℚ) :
    ∀ (fuel : ℕ) (t : SearchTree S M) (idx : ℕ),
      (∀ i n p, t.nodes.get? i = some n → n.parent = some p → p < i) →
      idx < fuel → backprop q fuel t idx ≠ .error .fuel := by
  intro fuel
  induction fuel with
  | zero => intro t idx _ h; omega
  | succ fuel ih =>
    intro t idx hpd hlt h
    rw [backprop] at h
    cases hget : t.nodes.get? idx with
    | none =>
      rw [hget] at h
      rw [Except.error.injEq] at h
      exact (EngineErr.noConfusion h)
    | some n =>
      simp only [hget] at h
      cases hupd : n.update q with
      | error e =>
        simp only [hupd] at h
        rw [Except.error.injEq] at h
        subst h
        exact (EngineErr.noConfusion (update_error_panicked hupd))
      | ok n' =>
        simp only [hupd] at h
        obtain ⟨hp, -, -, -, -, -, -⟩ := update_ok_fields hupd
        cases hpar : n'.parent with
        | none => simp only [hpar] at h; exact (Except.noConfusion h)
        | some p =>
          simp only [hpar] at h
          have hpidx : p < idx := hpd idx n p hget (by rw [← hp]; exact hpar)
          refine ih (t.setNode idx n') p ?_ (by omega) h
          intro i m pp hm hmp
          by_cases hix : i = idx
          · subst hix
            rw [setNode_get?_eq hget, Option.some.injEq] at hm
            subst hm
            exact hpd i n pp hget (by rw [← hp]; exact hmp)
          · rw [setNode_get?_ne t idx n' hix] at hm
            exact hpd i m pp hm hmp

theorem backprop_root_visits {S M : Type} (q : ℚ) :
    ∀ (fuel : ℕ) (t : SearchTree S M) (idx : ℕ) (t' : SearchTree S M),
      WFTree t → backprop q fuel t idx = .ok t' →
      visitsAt t' 0 = visitsAt t 0 + 1 := by
  intro fuel
  induction fuel with
  | zero => intro t idx t' _ h; exact (Except.noConfusion h)
  | succ fuel ih =>
    intro t idx t' hWF h
    rw [backprop] at h
    cases hget : t.nodes.get? idx with
    | none => rw [hget] at h; exact (Except.noConfusion h)
    | some n =>
      simp only [hget] at h
      cases hupd : n.update q with
      | error e => simp only [hupd] at h; exact (Except.noConfusion h)
      | ok n' =>
        simp only [hupd] at h
        obtain ⟨hp, hf, hc, hv, -, -, -⟩ := update_ok_fields hupd
        cases hpar : n'.parent with
        | none =>
          simp only [hpar] at h
          rw [Except.ok.injEq] at h
          subst h
          have hidx0 : idx = 0 := (hWF.2.1 idx n hget).mp (hp.symm.trans hpar)
          subst hidx0
          rw [visitsAt_setNode hget 0, if_pos rfl, hv, visitsAt, hget]
          rfl
        | some p =>
          simp only [hpar] at h
          have hWF2 : WFTree (t.setNode idx n') :=
            sameStruct_WF (sameStruct_setNode hget hp hf hc) hWF
          have hidx : idx ≠ 0 := by
            intro h0
            subst h0
            have hnone : n.parent = none := (hWF.2.1 0 n hget).mpr rfl
            rw [hp, hnone] at hpar
            exact (Option.noConfusion hpar)
          have h0 : visitsAt (t.setNode idx n') 0 = visitsAt t 0 := by
            rw [visitsAt_setNode hget 0, if_neg (Ne.symm hidx)]
          rw [← h0]
          exact ih (t.setNode idx n') p t' hWF2 h

theorem backprop_from_root {S M : Type} (q : ℚ) (fuel : ℕ) (t t' : SearchTree S M)
    (hWF : WFTree t) (h : backprop q fuel t 0 = .ok t') :
    ∃ n n', t.nodes.get? 0 = some n ∧ n.update q = .ok n' ∧ t' = t.setNode 0 n' := by
  cases fuel with
  | zero => exact (Except.noConfusion h)
  | succ fuel =>
    rw [backprop] at h
    cases hget : t.nodes.get? 0 with
    | none => rw [hget] at h; exact (Except.noConfusion h)
    | some n =>
      simp only [hget] at h
      cases hupd : n.update q with
      | error e => simp only [hupd] at h; exact (Except.noConfusion h)
      | ok n' =>
        simp only [hupd] at h
        obtain ⟨hp, -, -, -, -, -, -⟩ := update_ok_fields hupd
        have hnone : n'.parent = none := by
          rw [hp]; exact (hWF.2.1 0 n hget).mpr rfl
        simp only [hnone] at h
        rw [Except.ok.injEq] at h
        exact ⟨n, n', rfl, hupd, h.symm⟩

theorem backprop_parent_bound {S M : Type} (q : ℚ) :
    ∀ (fuel : ℕ) (t : SearchTree S M) (x : ℕ) (t' : SearchTree S M),
      WFTree t →
      (∀ p pn, t.nodes.get? p = some pn →
        sumVisits t pn.firstChild pn.nChildren ≤ pn.visits + (if p = x then 1 else 0)) →
      backprop q fuel t x = .ok t' →
      ∀ p pn', t'.nodes.get? p = some pn' →
        sumVisits t' pn'.firstChild pn'.nChildren ≤ pn'.visits := by
  intro fuel
  induction fuel with
  | zero => intro t x t' _ _ h; exact (Except.noConfusion h)
  | succ fuel ih =>
    intro t x t' hWF hP h
    rw [backprop] at h
    cases hget : t.nodes.get? x with
    | none => rw [hget] at h; exact (Except.noConfusion h)
    | some n =>
      simp only [hget] at h
      cases hupd : n.update q with
      | error e => simp only [hupd] at h; exact (Except.noConfusion h)
      | ok n' =>
        simp only [hupd] at h
        obtain ⟨hp, hf, hc, hv, -, -, -⟩ := update_ok_fields hupd
        have hself : ¬(n.firstChild ≤ x ∧ x < n.firstChild + n.nChildren) := by
          rintro ⟨h1, h2⟩
          have hk : n.nChildren ≠ 0 := by omega
          have := (hWF.2.2.2.1 x n hget hk).1
          omega
        have hmem : ∀ p pn, t.nodes.get? p = some pn →
            (pn.firstChild ≤ x ∧ x < pn.firstChild + pn.nChildren) → n.parent = some p := by
          rintro p pn hpn ⟨h1, h2⟩
          have hk : pn.nChildren ≠ 0 := by omega
          obtain ⟨c, hcx, hcp⟩ := (hWF.2.2.2.1 p pn hpn hk).2.2 x h1 h2
          rw [hget, Option.some.injEq] at hcx
          subst hcx
          exact hcp
        cases hpar : n'.parent with
        | none =>
          simp only [hpar] at h
          rw [Except.ok.injEq] at h
          subst h
          intro p pn' hpn'
          by_cases hpx : p = x
          · subst hpx
            rw [setNode_get?_eq hget, Option.some.injEq] at hpn'
            subst hpn'
            rw [hf, hc, sumVisits_setNode hget hv, if_neg hself, hv]
            have hPx := hP p n hget
            rw [if_pos rfl] at hPx
            omega
          · rw [setNode_get?_ne t x n' hpx] at hpn'
            rw [sumVisits_setNode hget hv]
            have hind : ¬(pn'.firstChild ≤ x ∧ x < pn'.firstChild + pn'.nChildren) := by
              intro hin
              have hnp := hmem p pn' hpn' hin
              rw [← hp, hpar] at hnp
              exact (Option.noConfusion hnp)
            rw [if_neg hind, Nat.add_zero]
            have hPp := hP p pn' hpn'
            rw [if_neg hpx] at hPp
            omega
        | some pp =>
          simp only [hpar] at h
          have hWF2 : WFTree (t.setNode x n') :=
            sameStruct_WF (sameStruct_setNode hget hp hf hc) hWF
          have hppx : n.parent = some pp := hp.symm.trans hpar
          have hP2 : ∀ p pn₂, (t.setNode x n').nodes.get? p = some pn₂ →
              sumVisits (t.setNode x n') pn₂.firstChild pn₂.nChildren
                ≤ pn₂.visits + (if p = pp then 1 else 0) := by
            intro p pn₂ hpn₂
            by_cases hpx : p = x
            · subst hpx
              rw [setNode_get?_eq hget, Option.some.injEq] at hpn₂
              subst hpn₂
              rw [hf, hc, sumVisits_setNode hget hv, if_neg hself, hv]
              have hPx := hP p n hget
              rw [if_pos rfl] at hPx
              split_ifs <;> omega
            · rw [setNode_get?_ne t x n' hpx] at hpn₂
              rw [sumVisits_setNode hget hv]
              have hPp := hP p pn₂ hpn₂
              rw [if_neg hpx, Nat.add_zero] at hPp
              by_cases hin : pn₂.firstChild ≤ x ∧ x < pn₂.firstChild + pn₂.nChildren
              · have hparp := hmem p pn₂ hpn₂ hin
                have hppp : p = pp := Option.some.inj (hparp.symm.trans hppx)
                rw [if_pos hin, if_pos hppp]
                omega
              · rw [if_neg hin, Nat.add_zero]
                split_ifs <;> omega
          exact ih (t.setNode x n') pp t' hWF2 hP2 h

theorem backprop_root_child_sum {S M : Type} (q : ℚ) :
    ∀ (fuel : ℕ) (t : SearchTree S M) (x : ℕ) (t' : SearchTree S M) (rn : Node S M),
      WFTree t → x ≠ 0 → backprop q fuel t x = .ok t' →
      t.nodes.get? 0 = some rn →
      sumVisits t' rn.firstChild rn.nChildren
        = sumVisits t rn.firstChild rn.nChildren + 1 := by
  intro fuel
  induction fuel with
  | zero => intro t x t' rn _ _ h _; exact (Except.noConfusion h)
  | succ fuel ih =>
    intro t x t' rn hWF hx h hroot
    rw [backprop] at h
    cases hget : t.nodes.get? x with
    | none => rw [hget] at h; exact (Except.noConfusion h)
    | some n =>
      simp only [hget] at h
      cases hupd : n.update q with
      | error e => simp only [hupd] at h; exact (Except.noConfusion h)
      | ok n' =>
        simp only [hupd] at h
        obtain ⟨hp, hf, hc, hv, -, -, -⟩ := update_ok_fields hupd
        have hpar : ∃ pp, n'.parent = some pp := by
          cases hn : n'.parent with
          | none => exact absurd ((hWF.2.1 x n hget).mp (hp.symm.trans hn)) hx
          | some pp => exact ⟨pp, rfl⟩
        obtain ⟨pp, hppar⟩ := hpar
        simp only [hppar] at h
        have hWF2 : WFTree (t.setNode x n') :=
          sameStruct_WF (sameStruct_setNode hget hp hf hc) hWF
        have hroot2 : (t.setNode x n').nodes.get? 0 = some rn := by
          rw [setNode_get?_ne t x n' (Ne.symm hx)]
          exact hroot
        have hnpar : n.parent = some pp := hp.symm.trans hppar
        by_cases hpp0 : pp = 0
        · subst hpp0
          obtain ⟨rn2, hrn2, hin1, hin2⟩ := hWF.2.2.2.2 x n 0 hget hnpar
          have hrneq : rn = rn2 := Option.some.inj (hroot.symm.trans hrn2)
          subst hrneq
          have hsum2 : sumVisits (t.setNode x n') rn.firstChild rn.nChildren
              = sumVisits t rn.firstChild rn.nChildren + 1 := by
            rw [sumVisits_setNode hget hv, if_pos ⟨hin1, hin2⟩]
          obtain ⟨m, m', hm, hmupd, hteq⟩ := backprop_from_root q fuel _ t' hWF2 h
          rw [hroot2, Option.some.injEq] at hm
          subst hm
          obtain ⟨-, -, -, hv', -, -, -⟩ := update_ok_fields hmupd
          subst hteq
          have ha0 : 0 < rn.firstChild := by
            have hk : rn.nChildren ≠ 0 := by omega
            exact (hWF.2.2.2.1 0 rn hroot hk).1
          rw [sumVisits_setNode hroot2 hv', if_neg (by omega), Nat.add_zero, hsum2]
        · have hind : ¬(rn.firstChild ≤ x ∧ x < rn.firstChild + rn.nChildren) := by
            rintro ⟨h1, h2⟩
            have hk : rn.nChildren ≠ 0 := by omega
            obtain ⟨c, hcx, hcp⟩ := (hWF.2.2.2.1 0 rn hroot hk).2.2 x h1 h2
            rw [hget, Option.some.injEq] at hcx
            subst hcx
            rw [hnpar] at hcp
            exact hpp0 (Option.some.inj hcp)
          have hsum2 : sumVisits (t.setNode x n') rn.firstChild rn.nChildren
              = sumVisits t rn.firstChild rn.nChildren := by
            rw [sumVisits_setNode hget hv, if_neg hind, Nat.add_zero]
          have hrec := ih (t.setNode x n') pp t' rn hWF2 hpp0 h hroot2
          rw [hsum2] at hrec
          exact hrec

theorem ucbBest_lt (G : GameI) (P : Prims) (parent : G.State)
    (nodes : List (Node G.State G.Move)) (pv : ℕ) (c : ℚ) (hne : nodes ≠ []) :
    ucbBest G P parent nodes pv c < nodes.length := by
  have hlen : (ucbVals G P parent nodes pv c).length = nodes.length := by
    simp [ucbVals]
  rw [ucbBest]
  rcases ucbFold_sem (ucbVals G P parent nodes pv c) 0 0 ⊥ with ⟨hr, -⟩ | ⟨j, hj, hr, -, -, -⟩
  · rw [hr]
    cases nodes with
    | nil => exact absurd rfl hne
    | cons a l => simp
  · rw [hr, hlen] at *
    omega

theorem select_ok (G : GameI) (P : Prims) (c : ℚ) (t : SearchTree G.State G.Move)
    (hWF : WFTree t) :
    ∀ (fuel idx : ℕ) (state : G.State), idx < t.nodes.length → t.nodes.length ≤ idx + fuel →
      ∃ pIdx state' node,
        selectLoop G P c t fuel idx state = .ok (pIdx, state')
        ∧ t.nodes.get? pIdx = some node ∧ node.nChildren = 0
        ∧ idx ≤ pIdx ∧ (pIdx = idx → state' = state) := by
  intro fuel
  induction fuel with
  | zero => intro idx state h1 h2; omega
  | succ fuel ih =>
    intro idx state hlt hfuel
    cases hget : t.nodes.get? idx with
    | none =>
      have hlen := List.get?_eq_none.mp hget
      omega
    | some node =>
      by_cases hch : node.nChildren = 0
      · have hfalse : ¬(node.hasChildren = true) := by
          simp [Node.hasChildren, hch]
        refine ⟨idx, state, node, ?_, hget, hch, Nat.le_refl idx, fun _ => rfl⟩
        rw [selectLoop]
        simp only [hget]
        rw [if_neg hfalse]
      · have htrue : node.hasChildren = true := by
          rw [Node.hasChildren]
          exact decide_eq_true (by omega)
        obtain ⟨hidxlt, hle, hchild⟩ := hWF.2.2.2.1 idx node hget hch
        have hslen : ((t.nodes.drop node.firstChild).take node.nChildren).length
            = node.nChildren := by
          rw [List.length_take, List.length_drop]
          omega
        have hsne : (t.nodes.drop node.firstChild).take node.nChildren ≠ [] := by
          intro hnil
          rw [hnil] at hslen
          simp only [List.length_nil] at hslen
          exact hch hslen.symm
        have hbest := ucbBest_lt G P state _ node.visits c hsne
        rw [hslen] at hbest
        obtain ⟨child, hcget, -⟩ := hchild
          (ucbBest G P state ((t.nodes.drop node.firstChild).take node.nChildren) node.visits c
            + node.firstChild) (by omega) (by omega)
        obtain ⟨pIdx, state', pnode, hsel, hpget, hpch, hple, hpst⟩ :=
          ih (ucbBest G P state ((t.nodes.drop node.firstChild).take node.nChildren)
                node.visits c + node.firstChild)
             (G.push state child.inboundEdge) (by omega) (by omega)
        refine ⟨pIdx, state', pnode, ?_, hpget, hpch, by omega, ?_⟩
        · rw [selectLoop]
          simp only [hget]
          rw [if_pos htrue, if_neg (by omega)]
          simp only [hcget]
          exact hsel
        · intro heq
          exact absurd heq (by omega)

/-- The search-loop invariant: a well-formed arena whose root visit
count, per-node child-visit sums, and root-children visit sum all track
the rollout counter. -/
def SInv {S M : Type} (t : SearchTree S M) : Prop :=
  WFTree t
  ∧ visitsAt t 0 = t.rollouts
  ∧ (∀ p pn, t.nodes.get? p = some pn →
      sumVisits t pn.firstChild pn.nChildren ≤ pn.visits)
  ∧ (∀ rn, t.nodes.get? 0 = some rn →
      sumVisits t rn.firstChild rn.nChildren = t.rollouts)

theorem visitsAt_ge_len {S M : Type} (t : SearchTree S M) {j : ℕ}
    (h : t.nodes.length ≤ j) : visitsAt t j = 0 := by
  rw [visitsAt, List.get?_len_le h]
  rfl

theorem sumVisits_zero {S M : Type} (t : SearchTree S M) (a : ℕ) :
    sumVisits t a 0 = 0 := by
  simp [sumVisits]

theorem sumVisits_ge_len {S M : Type} (t : SearchTree S M) {a : ℕ}
    (h : t.nodes.length ≤ a) (k : ℕ) : sumVisits t a k = 0 := by
  rw [sumVisits]
  apply List.sum_eq_zero
  intro x hx
  rw [List.mem_map] at hx
  obtain ⟨j, -, rfl⟩ := hx
  exact visitsAt_ge_len t (by omega)

theorem root_exists {S M : Type} {t : SearchTree S M} (hWF : WFTree t) :
    ∃ rn, t.nodes.get? 0 = some rn := by
  cases hget : t.nodes.get? 0 with
  | none =>
    have := List.get?_eq_none.mp hget
    cases ht : t.nodes with
    | nil => exact absurd ht hWF.1
    | cons a l => rw [ht] at this; simp at this
  | some rn => exact ⟨rn, rfl⟩

theorem backprop_rollouts {S M : Type} (q : ℚ) :
    ∀ (fuel : ℕ) (t : SearchTree S M) (idx : ℕ) (t' : SearchTree S M),
      backprop q fuel t idx = .ok t' → t'.rollouts = t.rollouts := by
  intro fuel
  induction fuel with
  | zero => intro t idx t' h; exact (Except.noConfusion h)
  | succ fuel ih =>
    intro t idx t' h
    rw [backprop] at h
    cases hget : t.nodes.get? idx with
    | none => rw [hget] at h; exact (Except.noConfusion h)
    | some n =>
      simp only [hget] at h
      cases hupd : n.update q with
      | error e => simp only [hupd] at h; exact (Except.noConfusion h)
      | ok n' =>
        simp only [hupd] at h
        cases hpar : n'.parent with
        | none =>
          simp only [hpar] at h
          rw [Except.ok.injEq] at h
          subst h
          exact setNode_rollouts t idx n'
        | some p =>
          simp only [hpar] at h
          rw [ih (t.setNode idx n') p t' h]
          exact setNode_rollouts t idx n'

theorem expand_access {G : GameI} {t : SearchTree G.State G.Move} {idx : ℕ}
    {node : Node G.State G.Move} {board : G.State} {t' : SearchTree G.State G.Move}
    (hget : t.nodes.get? idx = some node)
    (hok : SearchTree.expand G t idx board = .ok t') :
    ∀ j c, t'.nodes.get? j = some c →
      (j = idx ∧ c = node.addChildren t.nodes.length (G.legalMoves board).length)
      ∨ (j ≠ idx ∧ j < t.nodes.length ∧ t.nodes.get? j = some c)
      ∨ (t.nodes.length ≤ j ∧ j < t.nodes.length + (G.legalMoves board).length
          ∧ ∃ m, c = Node.new G (G.push board m) (some idx) m) := by
  obtain ⟨-, hlen, hat, hold, hnew, -⟩ := expand_spec hget hok
  intro j c hc
  by_cases hj : j = idx
  · subst hj
    rw [hat, Option.some.injEq] at hc
    exact Or.inl ⟨rfl, hc.symm⟩
  · by_cases hjL : j < t.nodes.length
    · exact Or.inr (Or.inl ⟨hj, hjL, by rw [← hold j hj hjL]; exact hc⟩)
    · by_cases hjK : j < t.nodes.length + (G.legalMoves board).length
      · obtain ⟨m, hm⟩ := hnew (j - t.nodes.length) (by omega)
        have heq : t.nodes.length + (j - t.nodes.length) = j := by omega
        rw [heq] at hm
        rw [hm, Option.some.injEq] at hc
        exact Or.inr (Or.inr ⟨by omega, hjK, m, hc.symm⟩)
      · rw [List.get?_len_le (by omega)] at hc
        exact (Option.noConfusion hc)

theorem expand_visitsAt {G : GameI} {t : SearchTree G.State G.Move} {idx : ℕ}
    {node : Node G.State G.Move} {board : G.State} {t' : SearchTree G.State G.Move}
    (hget : t.nodes.get? idx = some node)
    (hok : SearchTree.expand G t idx board = .ok t') :
    ∀ j, visitsAt t' j = visitsAt t j := by
  obtain ⟨-, hlen, hat, hold, hnew, -⟩ := expand_spec hget hok
  intro j
  by_cases hj : j = idx
  · subst hj
    rw [visitsAt, hat, visitsAt, hget]
    rfl
  · by_cases hjL : j < t.nodes.length
    · rw [visitsAt, hold j hj hjL, visitsAt]
    · by_cases hjK : j < t.nodes.length + (G.legalMoves board).length
      · obtain ⟨m, hm⟩ := hnew (j - t.nodes.length) (by omega)
        have heq : t.nodes.length + (j - t.nodes.length) = j := by omega
        rw [heq] at hm
        rw [visitsAt, hm, visitsAt, List.get?_len_le (by omega)]
        rfl
      · rw [visitsAt, List.get?_len_le (by omega), visitsAt, List.get?_len_le (by omega)]

theorem expand_sumVisits {G : GameI} {t : SearchTree G.State G.Move} {idx : ℕ}
    {node : Node G.State G.Move} {board : G.State} {t' : SearchTree G.State G.Move}
    (hget : t.nodes.get? idx = some node)
    (hok : SearchTree.expand G t idx board = .ok t') :
    ∀ a k, sumVisits t' a k = sumVisits t a k := by
  intro a k
  rw [sumVisits, sumVisits]
  congr 1
  exact List.map_congr_left fun j _ => expand_visitsAt hget hok _

theorem setup_SInv (G : GameI) (t : SearchTree G.State G.Move) (root : G.State) :
    SInv (t.setup G root) := by
  refine ⟨setup_WF G t root, rfl, ?_, ?_⟩
  · intro p pn hp
    cases p with
    | zero =>
      simp only [SearchTree.setup, List.get?] at hp
      rw [Option.some.injEq] at hp
      subst hp
      rw [Node.new]
      rw [sumVisits_zero]
    | succ p =>
      simp only [SearchTree.setup, List.get?] at hp
      exact (Option.noConfusion hp)
  · intro rn hrn
    simp only [SearchTree.setup, List.get?] at hrn
    rw [Option.some.injEq] at hrn
    subst hrn
    rw [Node.new, sumVisits_zero]
    rfl

theorem step_SInv {G : GameI} {P : Prims} {flags : Behaviour} {side : ℤ} {f t : ℕ → ℕ}
    {rolloutFuel : ℕ} {tree1 : SearchTree G.State G.Move} {x : ℕ} {board : G.State}
    {fi ti : ℕ} {q : ℚ} {tree2 : SearchTree G.State G.Move} {fi2 ti2 : ℕ}
    {tree3 : SearchTree G.State G.Move}
    (hInv : SInv tree1) (hx : x ≠ 0)
    (hsim : simulate G P flags side f t rolloutFuel tree1 x board fi ti
      = .ok (q, tree2, fi2, ti2))
    (hbp : backprop q tree2.nodes.length tree2 x = .ok tree3) :
    SInv tree3.incRollouts ∧ tree3.rollouts = tree1.rollouts := by
  obtain ⟨hWF, hv0, hpb, hrs⟩ := hInv
  have hshape := simulate_shape hsim
  have hWF2 : WFTree tree2 := sameShape_WF hshape hWF
  have hstruct := backprop_struct q tree2.nodes.length tree2 x tree3 hbp
  have hWF3 : WFTree tree3 := sameStruct_WF hstruct hWF2
  have hslack : ∀ p pn, tree2.nodes.get? p = some pn →
      sumVisits tree2 pn.firstChild pn.nChildren ≤ pn.visits + (if p = x then 1 else 0) := by
    intro p pn hp
    obtain ⟨n, hn, -, hf, hc, hv⟩ := hshape.2.2 p pn hp
    rw [hf, hc, sameShape_sumVisits hshape, hv]
    have := hpb p n hn
    split_ifs <;> omega
  have hpb3 := backprop_parent_bound q tree2.nodes.length tree2 x tree3 hWF2 hslack hbp
  have hv03 : visitsAt tree3 0 = visitsAt tree2 0 + 1 :=
    backprop_root_visits q tree2.nodes.length tree2 x tree3 hWF2 hbp
  have hroll3 : tree3.rollouts = tree2.rollouts :=
    backprop_rollouts q tree2.nodes.length tree2 x tree3 hbp
  have hroll2 : tree2.rollouts = tree1.rollouts := hshape.2.1
  obtain ⟨rn1, hrn1⟩ := root_exists hWF
  obtain ⟨rn2, hrn2, -, hf2, hc2, -⟩ := sameShape_get?_rev hshape hrn1
  have hsum3 := backprop_root_child_sum q tree2.nodes.length tree2 x tree3 rn2 hWF2 hx hbp hrn2
  refine ⟨⟨hWF3, ?_, hpb3, ?_⟩, by rw [hroll3, hroll2]⟩
  · show visitsAt tree3 0 = tree3.rollouts + 1
    rw [hv03, sameShape_visitsAt hshape, hv0, hroll3, hroll2]
  · intro rn' hrn'
    show sumVisits tree3 rn'.firstChild rn'.nChildren = tree3.rollouts + 1
    obtain ⟨rn2b, hrn2b, -, hf3, hc3⟩ := hstruct.2 0 rn' hrn'
    have hrn2eq : rn2b = rn2 := Option.some.inj (hrn2b.symm.trans hrn2)
    subst hrn2eq
    rw [hf3, hc3, hsum3, sameShape_sumVisits hshape, hf2, hc2, hrs rn1 hrn1,
      hroll3, hroll2]

theorem sesb_SInv {G : GameI} {P : Prims} {flags : Behaviour} {side : ℤ} {f t : ℕ → ℕ}
    {rolloutFuel : ℕ} {root : G.State} {st st' : SState G.State G.Move}
    (hterm : G.isTerminal root = false)
    (hmoves : ∀ s, G.isTerminal s = false → G.legalMoves s ≠ [])
    (hInv : SInv st.tree)
    (hok : sesb G P flags side f t rolloutFuel root st = .ok st') :
    SInv st'.tree.incRollouts ∧ st'.tree.rollouts = st.tree.rollouts := by
  have hWF := hInv.1
  have hlen0 : 0 < st.tree.nodes.length := by
    cases ht : st.tree.nodes with
    | nil => exact absurd ht hWF.1
    | cons a l => simp
  obtain ⟨pIdx, travState, pnode, hsel, hpget, hpch, hple, hpst⟩ :=
    select_ok G P flags.expFactor st.tree hWF st.tree.nodes.length ROOT_IDX root
      (show 0 < st.tree.nodes.length from hlen0)
      (by show st.tree.nodes.length ≤ 0 + st.tree.nodes.length; omega)
  rw [sesb] at hok
  simp only [hsel] at hok
  by_cases htrav : G.isTerminal travState = true
  · rw [if_pos htrav] at hok
    have hpIdx0 : pIdx ≠ 0 := by
      intro h0
      subst h0
      rw [hpst rfl, hterm] at htrav
      exact Bool.noConfusion htrav
    have hhc : pnode.hasChildren = false := by
      rw [Node.hasChildren, hpch]
      rfl
    simp only [hpget, hhc, Bool.false_eq_true, if_false] at hok
    cases hsim : simulate G P flags side f t rolloutFuel st.tree pIdx travState st.fi st.ti with
    | error e => simp only [hsim] at hok; exact (Except.noConfusion hok)
    | ok res =>
      obtain ⟨q, tree2, fi2, ti2⟩ := res
      simp only [hsim] at hok
      cases hbp : backprop q tree2.nodes.length tree2 pIdx with
      | error e => simp only [hbp] at hok; exact (Except.noConfusion hok)
      | ok tree3 =>
        simp only [hbp] at hok
        rw [Except.ok.injEq] at hok
        subst hok
        exact step_SInv hInv hpIdx0 hsim hbp
  · rw [if_neg htrav] at hok
    have htravF : G.isTerminal travState = false := by
      cases h : G.isTerminal travState with
      | false => rfl
      | true => exact absurd h htrav
    cases hexp : SearchTree.expand G st.tree pIdx travState with
    | error e => simp only [hexp] at hok; exact (Except.noConfusion hok)
    | ok tree1 =>
      simp only [hexp] at hok
      obtain ⟨-, hlen1, hat, hold, hnew, hro1⟩ := expand_spec hpget hexp
      have hk0 : (G.legalMoves travState).length ≠ 0 := by
        intro h0
        exact hmoves travState htravF (List.length_eq_zero.mp h0)
      have hhc : (pnode.addChildren st.tree.nodes.length
          (G.legalMoves travState).length).hasChildren = true := by
        rw [Node.hasChildren]
        exact decide_eq_true (by simp only [Node.addChildren]; omega)
      simp only [hat, hhc, if_true] at hok
      have hx0 : (pnode.addChildren st.tree.nodes.length
          (G.legalMoves travState).length).randomChild (t st.ti) ≠ 0 := by
        rw [Node.randomChild]
        simp only [Node.addChildren]
        omega
      have hInv1 : SInv tree1 := by
        refine ⟨expand_WF hWF hpget hexp, ?_, ?_, ?_⟩
        · rw [expand_visitsAt hpget hexp 0, hro1]
          exact hInv.2.1
        · intro p pn hp
          rcases expand_access hpget hexp p pn hp with
            ⟨rfl, rfl⟩ | ⟨hne, hpL, hpold⟩ | ⟨hge, hlt2, m, rfl⟩
          · rw [expand_sumVisits hpget hexp]
            simp only [Node.addChildren]
            rw [sumVisits_ge_len st.tree (le_refl _) _]
            exact Nat.zero_le _
          · rw [expand_sumVisits hpget hexp]
            exact hInv.2.2.1 p pn hpold
          · simp only [Node.new]
            rw [sumVisits_zero]
        · intro rn hrn
          by_cases hp0 : pIdx = 0
          · subst hp0
            rw [hat, Option.some.injEq] at hrn
            subst hrn
            simp only [Node.addChildren]
            rw [expand_sumVisits hpget hexp, sumVisits_ge_len st.tree (le_refl _) _, hro1]
            have hzero := hInv.2.2.2 pnode hpget
            rw [hpch, sumVisits_zero] at hzero
            exact hzero
          · have hrn' : st.tree.nodes.get? 0 = some rn := by
              rw [← hold 0 (Ne.symm hp0) hlen0]
              exact hrn
            rw [expand_sumVisits hpget hexp, hro1]
            exact hInv.2.2.2 rn hrn'
      cases hsim : simulate G P flags side f t rolloutFuel tree1
          ((pnode.addChildren st.tree.nodes.length
            (G.legalMoves travState).length).randomChild (t st.ti))
          travState st.fi (st.ti + 1) with
      | error e => simp only [hsim] at hok; exact (Except.noConfusion hok)
      | ok res =>
        obtain ⟨q, tree2, fi2, ti2⟩ := res
        simp only [hsim] at hok
        cases hbp : backprop q tree2.nodes.length tree2
            ((pnode.addChildren st.tree.nodes.length
              (G.legalMoves travState).length).randomChild (t st.ti)) with
        | error e => simp only [hbp] at hok; exact (Except.noConfusion hok)
        | ok tree3 =>
          simp only [hbp] at hok
          rw [Except.ok.injEq] at hok
          subst hok
          have hstep := step_SInv hInv1 hx0 hsim hbp
          exact ⟨hstep.1, hstep.2.trans hro1⟩

theorem searchLoop_SInv {G : GameI} {P : Prims} {flags : Behaviour} {side : ℤ}
    {f t : ℕ → ℕ} {rolloutFuel : ℕ} {root : G.State} {n : ℕ}
    (hterm : G.isTerminal root = false)
    (hmoves : ∀ s, G.isTerminal s = false → G.legalMoves s ≠ []) :
    ∀ (fuel : ℕ) (st st' : SState G.State G.Move), SInv st.tree → st.tree.rollouts ≤ n →
      searchLoop G P flags side f t rolloutFuel root n fuel st = .ok st' →
      SInv st'.tree ∧ st'.tree.rollouts = n := by
  intro fuel
  induction fuel with
  | zero =>
    intro st st' hInv hle h
    rw [searchLoop] at h
    by_cases hn : n ≤ st.tree.rollouts
    · rw [if_pos hn, Except.ok.injEq] at h
      subst h
      exact ⟨hInv, by omega⟩
    · rw [if_neg hn] at h
      exact (Except.noConfusion h)
  | succ fuel ih =>
    intro st st' hInv hle h
    rw [searchLoop] at h
    by_cases hn : n ≤ st.tree.rollouts
    · rw [if_pos hn, Except.ok.injEq] at h
      subst h
      exact ⟨hInv, by omega⟩
    · rw [if_neg hn] at h
      cases hs : sesb G P flags side f t rolloutFuel root st with
      | error e => rw [hs] at h; exact (Except.noConfusion h)
      | ok st1 =>
        rw [hs] at h
        obtain ⟨hInv1, hro1⟩ := sesb_SInv hterm hmoves hInv hs
        refine ih { st1 with tree := st1.tree.incRollouts } st' hInv1 ?_ h
        show st1.tree.rollouts + 1 ≤ n
        omega

theorem sumVisits_head {S M : Type} (t : SearchTree S M) (a k : ℕ) :
    sumVisits t a (k + 1) = visitsAt t a + sumVisits t (a + 1) k := by
  rw [sumVisits, sumVisits, List.range_succ_eq_map, List.map_cons, List.sum_cons,
    List.map_map, Nat.add_zero]
  congr 1
  refine congrArg List.sum (List.map_congr_left ?_)
  intro j _
  simp only [Function.comp_apply]
  congr 1
  omega

theorem collectVisits_spec {S M : Type} (t : SearchTree S M) :
    ∀ (k a : ℕ), a + k ≤ t.nodes.length →
      ∃ l, collectVisits t a k = .ok l ∧ l.sum = sumVisits t a k ∧ l.length = k := by
  intro k
  induction k with
  | zero =>
    intro a ha
    exact ⟨[], rfl, by rw [sumVisits_zero]; rfl, rfl⟩
  | succ k ih =>
    intro a ha
    cases hget : t.nodes.get? a with
    | none =>
      have := List.get?_eq_none.mp hget
      omega
    | some node =>
      obtain ⟨l, hl, hsum, hlen⟩ := ih (a + 1) (by omega)
      refine ⟨node.visits :: l, ?_, ?_, by simp [hlen]⟩
      · rw [collectVisits]
        simp only [hget, hl]
      · rw [List.sum_cons, hsum, sumVisits_head]
        congr 1
        rw [visitsAt, hget]
        rfl

theorem rootDist_spec {S M : Type} {t : SearchTree S M} (hWF : WFTree t)
    {rn : Node S M} (hroot : t.nodes.get? 0 = some rn) :
    ∃ l, t.rootRolloutDistribution = .ok l
      ∧ l.sum = sumVisits t rn.firstChild rn.nChildren ∧ l.length = rn.nChildren := by
  have hroot' : t.nodes.get? ROOT_IDX = some rn := hroot
  by_cases hch : rn.nChildren = 0
  · refine ⟨[], ?_, ?_, by simp [hch]⟩
    · rw [SearchTree.rootRolloutDistribution]
      simp only [hroot']
      rw [hch]
      rfl
    · rw [hch, sumVisits_zero]
      rfl
  · obtain ⟨-, hle, -⟩ := hWF.2.2.2.1 0 rn hroot hch
    obtain ⟨l, hl, hsum, hlen⟩ := collectVisits_spec t rn.nChildren rn.firstChild (by omega)
    refine ⟨l, ?_, hsum, hlen⟩
    rw [SearchTree.rootRolloutDistribution]
    simp only [hroot']
    exact hl

/-- C1 (visit conservation): for a completed single-tree
(`root_parallelism_count = 1`) search under `Limit::Rollouts n` from a
non-terminal root of a game whose non-terminal states always have moves,
the root's visit count equals the number of SESB iterations `n`, every
node's child-range visit sum is bounded by its own visit count, and the
returned rollout distribution sums to exactly `n` (with the reported
rollout count also `n`). -/
theorem C1_visit_conservation {G : GameI} {P : Prims} {flags : Behaviour}
    {f t : ℕ → ℕ} {tq : ℕ → ℚ} {rolloutFuel capacity : ℕ} {board : G.State} {n : ℕ}
    (hlimit : flags.limit = .rollouts n) (hpar : flags.rootParallelismCount = 1)
    (hterm : G.isTerminal board = false)
    (hmoves : ∀ s, G.isTerminal s = false → G.legalMoves s ≠ [])
    {res : SearchResults G.State} {st : SState G.State G.Move}
    (hok : searchFull G P flags f t tq rolloutFuel capacity board = .ok (res, st)) :
    visitsAt st.tree 0 = n
    ∧ (∀ p pn, st.tree.nodes.get? p = some pn →
        sumVisits st.tree pn.firstChild pn.nChildren ≤ pn.visits)
    ∧ res.rolloutDistribution.sum = n
    ∧ res.rollouts = n := by
  rw [searchFull] at hok
  simp only [hlimit] at hok
  cases hloop : searchLoop G P flags MCTS_new_side f t rolloutFuel board n n
      ⟨(SearchTree.withCapacity G.State G.Move capacity).setup G board, 0, 0⟩ with
  | error e => simp only [hloop] at hok; exact (Except.noConfusion hok)
  | ok stL =>
    simp only [hloop] at hok
    obtain ⟨hInvL, hroL⟩ := searchLoop_SInv hterm hmoves n
      ⟨(SearchTree.withCapacity G.State G.Move capacity).setup G board, 0, 0⟩ stL
      (setup_SInv G _ board) (Nat.zero_le n) hloop
    obtain ⟨rnL, hrnL⟩ := root_exists hInvL.1
    obtain ⟨dist, hdist, hdsum, hdlen⟩ := rootDist_spec hInvL.1 hrnL
    simp only [hdist] at hok
    have hrootIdx : stL.tree.nodes.get? ROOT_IDX = some rnL := hrnL
    simp only [hrootIdx] at hok
    have hne : ¬(stL.tree.rollouts ≠ n * flags.rootParallelismCount) := by
      rw [hpar, hroL]
      simp
    rw [if_neg hne] at hok
    cases hmc : (if flags.training then Except.ok (sampleMoveIndexFromRollouts dist (tq stL.ti))
                 else match distArgmaxLast dist with
                      | none => Except.error EngineErr.panicked
                      | some best => Except.ok best) with
    | error e => simp only [hmc] at hok; exact (Except.noConfusion hok)
    | ok moveChosen =>
      simp only [hmc] at hok
      cases hcg : stL.tree.nodes.get? (moveChosen + rnL.firstChild) with
      | none => simp only [hcg] at hok; exact (Except.noConfusion hok)
      | some chosen =>
        simp only [hcg] at hok
        rw [Except.ok.injEq, Prod.mk.injEq] at hok
        obtain ⟨hres, hst⟩ := hok
        subst hst
        refine ⟨?_, hInvL.2.2.1, ?_, ?_⟩
        · rw [hInvL.2.1, hroL]
        · rw [← hres]
          show dist.sum = n
          rw [hdsum, hInvL.2.2.2 rnL hrnL, hroL]
        · rw [← hres]
          show stL.tree.rollouts = n
          exact hroL

/-- C10 (termination of select and backprop): on any well-formed arena —
the invariant established by `setup` (`setup_WF`) and preserved by
`expand` (`expand_WF`) — the select descent run with fuel equal to the
arena size reaches a childless node and returns `ok` (so it never
exhausts its fuel), backpropagation from any in-arena index with fuel
equal to the arena size never exhausts its fuel (parent links strictly
decrease), and `expand` places children at indices strictly greater than
the expanded node's index with their parent links pointing back at that
smaller index. -/
theorem C10_select_backprop_terminate {G : GameI} (P : Prims) (c q : ℚ)
    {t : SearchTree G.State G.Move} (hWF : WFTree t) :
    (∀ state, ∃ pIdx state',
        selectLoop G P c t t.nodes.length ROOT_IDX state = .ok (pIdx, state'))
    ∧ (∀ x, x < t.nodes.length → backprop q t.nodes.length t x ≠ .error .fuel)
    ∧ (∀ idx node board t', t.nodes.get? idx = some node →
        SearchTree.expand G t idx board = .ok t' →
        ∀ d, d < (G.legalMoves board).length →
          ∃ c2, t'.nodes.get? (t.nodes.length + d) = some c2
            ∧ c2.parent = some idx ∧ idx < t.nodes.length + d) := by
  have hlen0 : 0 < t.nodes.length := by
    cases ht : t.nodes with
    | nil => exact absurd ht hWF.1
    | cons a l => simp
  refine ⟨?_, ?_, ?_⟩
  · intro state
    obtain ⟨pIdx, state', node, hsel, -, -, -, -⟩ :=
      select_ok G P c t hWF t.nodes.length ROOT_IDX state
        (show 0 < t.nodes.length from hlen0)
        (by show t.nodes.length ≤ 0 + t.nodes.length; omega)
    exact ⟨pIdx, state', hsel⟩
  · intro x hx
    exact backprop_no_fuel q t.nodes.length t x hWF.2.2.1 hx
  · intro idx node board t' hget hok d hd
    obtain ⟨-, -, -, -, hnew, -⟩ := expand_spec hget hok
    obtain ⟨m, hm⟩ := hnew d hd
    have hidx : idx < t.nodes.length := get?_some_lt hget
    exact ⟨Node.new G (G.push board m) (some idx) m, hm, rfl, by omega⟩

/-- A minimal concrete game for exercising the full search driver: state
`0` (side `1` to move) has the single move `()` into the terminal state
`1`; every position evaluates to a draw. -/
@[reducible] def oneGame : GameI :=
  { State := ℕ, Move := Unit,
    turn := fun s => if s = 0 then 1 else -1,
    isTerminal := fun s => decide (s ≠ 0),
    evaluate := fun _ => 0,
    legalMoves := fun s => if s = 0 then [()] else [],
    push := fun s _ => s + 1,
    defaultMove := (),
    policy := fun _ _ _ => 1 }

/-- A single-tree inference-mode configuration: one rollout, random
rollout policy. -/
@[reducible] def flagsW : Behaviour :=
  { limit := .rollouts 1, rootParallelismCount := 1, rolloutPolicy := .Random,
    expFactor := 5, training := false }

/-- The root node of `oneGame` after one completed SESB iteration. -/
@[reducible] def rootW : Node ℕ Unit :=
  { board := 0, firstChild := 1, nChildren := 1, parent := none, value := 5,
    visits := 1, perspective := -1, terminal := false, inboundEdge := () }

/-- The sole child node of `oneGame` after one completed SESB
iteration. -/
@[reducible] def childW : Node ℕ Unit :=
  { board := 1, firstChild := 0, nChildren := 0, parent := some 0, value := 5,
    visits := 1, perspective := 1, terminal := true, inboundEdge := () }

/-- The final search state of the `oneGame` run. -/
@[reducible] def stW : SState ℕ Unit :=
  ⟨{ rootState := some 0, nodes := [rootW, childW], capacity := 2, rollouts := 1 }, 1, 1⟩

/-- The results record of the `oneGame` run. -/
@[reducible] def resW : SearchResults ℕ :=
  { rolloutDistribution := [1], newNode := 1, newNodeIdx := 1, rollouts := 1, winRate := 1/2 }

theorem searchFull_oneGame :
    searchFull oneGame zeroPrims flagsW (fun _ => 0) (fun _ => 0) (fun _ => 0) 2 2 0
      = .ok (resW, stW) := by
  norm_num [searchFull, flagsW, searchLoop, sesb, selectLoop, ROOT_IDX, SearchTree.setup,
    SearchTree.withCapacity, Node.new, Node.hasChildren, SearchTree.expand, Node.addChildren,
    Node.randomChild, simulate, randomRollout, pushRandom, backprop, Node.update,
    SearchTree.setNode, SearchTree.incRollouts, SearchTree.rootRolloutDistribution,
    collectVisits, distArgmaxLast, distFold, Node.winRate, oneGame, MCTS_new_side,
    WIN_SCORE, N_INF, Node.setWinScore, List.length, List.set]

theorem oneGame_moves : ∀ s, oneGame.isTerminal s = false → oneGame.legalMoves s ≠ [] := by
  intro s hs
  have h0 : s = 0 := by simpa using hs
  subst h0
  simp

theorem C1_visit_conservation_witness :
    searchFull oneGame zeroPrims flagsW (fun _ => 0) (fun _ => 0) (fun _ => 0) 2 2 0
      = .ok (resW, stW)
    ∧ flagsW.limit = .rollouts 1
    ∧ flagsW.rootParallelismCount = 1
    ∧ oneGame.isTerminal 0 = false
    ∧ (visitsAt stW.tree 0 = 1
       ∧ (∀ p pn, stW.tree.nodes.get? p = some pn →
           sumVisits stW.tree pn.firstChild pn.nChildren ≤ pn.visits)
       ∧ resW.rolloutDistribution.sum = 1
       ∧ resW.rollouts = 1) :=
  ⟨searchFull_oneGame, rfl, rfl, rfl,
    C1_visit_conservation rfl rfl rfl oneGame_moves searchFull_oneGame⟩

theorem C10_select_backprop_terminate_witness :
    WFTree ((SearchTree.withCapacity ℕ Unit 2).setup oneGame 0)
    ∧ ((∀ state, ∃ pIdx state',
          selectLoop oneGame zeroPrims 5 ((SearchTree.withCapacity ℕ Unit 2).setup oneGame 0)
              ((SearchTree.withCapacity ℕ Unit 2).setup oneGame 0).nodes.length ROOT_IDX state
            = .ok (pIdx, state'))
       ∧ (∀ x, x < ((SearchTree.withCapacity ℕ Unit 2).setup oneGame 0).nodes.length →
            backprop 0 ((SearchTree.withCapacity ℕ Unit 2).setup oneGame 0).nodes.length
                ((SearchTree.withCapacity ℕ Unit 2).setup oneGame 0) x ≠ .error .fuel)
       ∧ (∀ idx node board t',
            ((SearchTree.withCapacity ℕ Unit 2).setup oneGame 0).nodes.get? idx = some node →
            SearchTree.expand oneGame ((SearchTree.withCapacity ℕ Unit 2).setup oneGame 0)
                idx board = .ok t' →
            ∀ d, d < (oneGame.legalMoves board).length →
              ∃ c2, t'.nodes.get?
                  (((SearchTree.withCapacity ℕ Unit 2).setup oneGame 0).nodes.length + d)
                  = some c2
                ∧ c2.parent = some idx
                ∧ idx < ((SearchTree.withCapacity ℕ Unit 2).setup oneGame 0).nodes.length + d)) :=
  ⟨setup_WF oneGame (SearchTree.withCapacity ℕ Unit 2) 0,
    C10_select_backprop_terminate zeroPrims 5 0
      (setup_WF oneGame (SearchTree.withCapacity ℕ Unit 2) 0)⟩

/-- A game whose every state is terminal with evaluation `+1` and side
`-1` to move: a position the root player (to move `-1`) has lost. -/
@[reducible] def lossGame : GameI :=
  { State := ℕ, Move := Unit, turn := fun _ => -1, isTerminal := fun _ => true,
    evaluate := fun _ => 1, legalMoves := fun _ => [], push := fun s _ => s,
    defaultMove := (), policy := fun _ _ _ => 1 }

/-- Like `lossGame` but with evaluation `-1`: the immediate-loss value
the fixed `side = 1` actually compares against. -/
@[reducible] def winGame : GameI :=
  { State := ℕ, Move := Unit, turn := fun _ => -1, isTerminal := fun _ => true,
    evaluate := fun _ => -1, legalMoves := fun _ => [], push := fun s _ => s,
    defaultMove := (), policy := fun _ _ _ => 1 }

/-- A two-node arena (root plus one child) with zeroed statistics. -/
@[reducible] def rootL : Node ℕ Unit :=
  { board := 0, firstChild := 1, nChildren := 1, parent := none, value := 0,
    visits := 0, perspective := 1, terminal := true, inboundEdge := () }

@[reducible] def childL : Node ℕ Unit :=
  { board := 0, firstChild := 0, nChildren := 0, parent := some 0, value := 0,
    visits := 0, perspective := 1, terminal := true, inboundEdge := () }

@[reducible] def T5 : SearchTree ℕ Unit :=
  { rootState := some 0, nodes := [rootL, childL], capacity := 2, rollouts := 0 }

/-- C5 (amended): the `side` recorded by `MCTS::new` is the constant
`1` — never the side to move at the root — so the short-circuit on entry
to `simulate` fires exactly when the working state's evaluation equals
`-1`: then the simulation-start node's parent receives the `N_INF`
sentinel value and the evaluation is returned directly with the stream
cursors untouched; for any other evaluation the tree is returned
unchanged. -/
theorem C5_immediate_loss {G : GameI} {P : Prims} {flags : Behaviour} {f t : ℕ → ℕ}
    {rolloutFuel : ℕ} {tree : SearchTree G.State G.Move} {x : ℕ} {board : G.State}
    {fi ti : ℕ} {q : ℚ} {tree2 : SearchTree G.State G.Move} {fi2 ti2 : ℕ}
    (hok : simulate G P flags MCTS_new_side f t rolloutFuel tree x board fi ti
      = .ok (q, tree2, fi2, ti2)) :
    MCTS_new_side = 1
    ∧ (G.evaluate board = -1 →
        q = (G.evaluate board : ℚ) ∧ fi2 = fi ∧ ti2 = ti
        ∧ ∃ node pIdx pnode, tree.nodes.get? x = some node ∧ node.parent = some pIdx
            ∧ tree.nodes.get? pIdx = some pnode
            ∧ tree2 = tree.setNode pIdx (pnode.setWinScore N_INF))
    ∧ (G.evaluate board ≠ -1 → tree2 = tree) := by
  refine ⟨rfl, ?_, ?_⟩
  · intro htrig
    rcases simulate_cases hok with ⟨hne, -⟩ | ⟨-, hq, hfi, hti, rest⟩
    · exact absurd (show G.evaluate board = -MCTS_new_side from htrig) hne
    · exact ⟨hq, hfi, hti, rest⟩
  · intro hne
    rcases simulate_cases hok with ⟨-, h⟩ | ⟨htrig, -⟩
    · exact h
    · exact absurd (show G.evaluate board = -1 from htrig) hne

theorem simulate_winGame :
    simulate winGame zeroPrims flagsW MCTS_new_side (fun _ => 0) (fun _ => 0) 2 T5 1 0 0 0
      = .ok (-1, T5.setNode 0 (rootL.setWinScore N_INF), 0, 0) := by
  norm_num [simulate, flagsW, MCTS_new_side, T5, rootL, childL, winGame, Node.setWinScore,
    SearchTree.setNode, N_INF]

theorem C5_immediate_loss_witness :
    winGame.evaluate 0 = -1
    ∧ (MCTS_new_side = 1
       ∧ (winGame.evaluate 0 = -1 →
           (-1 : ℚ) = (winGame.evaluate 0 : ℚ) ∧ (0 : ℕ) = 0 ∧ (0 : ℕ) = 0
           ∧ ∃ node pIdx pnode, T5.nodes.get? 1 = some node ∧ node.parent = some pIdx
               ∧ T5.nodes.get? pIdx = some pnode
               ∧ T5.setNode 0 (rootL.setWinScore N_INF)
                   = T5.setNode pIdx (pnode.setWinScore N_INF))
       ∧ (winGame.evaluate 0 ≠ -1 →
           T5.setNode 0 (rootL.setWinScore N_INF) = T5)) :=
  ⟨rfl, C5_immediate_loss simulate_winGame⟩

/-- C5 (counterexample): with side `-1` to move at the root and the
working state's evaluation equal to `+1 = -(side to move at the root)`,
the claim requires the sentinel write — but the engine compares against
the fixed `side = 1`, does not trigger, runs the rollout, and returns
the tree unchanged with every stored value still `0 ≠ N_INF`. -/
theorem C5_counterexample :
    lossGame.evaluate 0 = -(lossGame.turn 0)
    ∧ simulate lossGame zeroPrims flagsW MCTS_new_side (fun _ => 0) (fun _ => 0) 2 T5 1 0 0 0
        = .ok (1, T5, 0, 0)
    ∧ (∀ j nd, T5.nodes.get? j = some nd → nd.value ≠ N_INF) := by
  refine ⟨by norm_num, ?_, ?_⟩
  · norm_num [simulate, flagsW, MCTS_new_side, T5, rootL, childL, lossGame, randomRollout]
  · intro j nd h
    match j with
    | 0 =>
      simp only [T5, rootL, childL, List.get?, Option.some.injEq] at h
      subst h
      norm_num [N_INF]
    | 1 =>
      simp only [T5, rootL, childL, List.get?, Option.some.injEq] at h
      subst h
      norm_num [N_INF]
    | (j + 2) =>
      simp only [T5, List.get?] at h
      exact (Option.noConfusion h)

/-- A concrete game with two root moves (`false` into state `1`, `true`
into state `2`, both terminal draws), used to exhibit the dependence of
the search on the unseeded thread-rng draws. -/
@[reducible] def twoGame : GameI :=
  { State := ℕ, Move := Bool,
    turn := fun s => if s = 0 then 1 else -1,
    isTerminal := fun s => decide (s ≠ 0),
    legalMoves := fun s => if s = 0 then [false, true] else [],
    evaluate := fun _ => 0,
    push := fun s m => if s = 0 then (if m then 2 else 1) else s,
    defaultMove := false,
    policy := fun _ _ _ => 1 }

@[reducible] def rootT : Node ℕ Bool :=
  { board := 0, firstChild := 1, nChildren := 2, parent := none, value := 5,
    visits := 1, perspective := -1, terminal := false, inboundEdge := false }

@[reducible] def childT (b : ℕ) (e : Bool) (v : ℚ) (k : ℕ) : Node ℕ Bool :=
  { board := b, firstChild := 0, nChildren := 0, parent := some 0, value := v,
    visits := k, perspective := 1, terminal := true, inboundEdge := e }

@[reducible] def resA : SearchResults ℕ :=
  { rolloutDistribution := [1, 0], newNode := 1, newNodeIdx := 1, rollouts := 1,
    winRate := 1/2 }

@[reducible] def stA : SState ℕ Bool :=
  ⟨{ rootState := some 0, nodes := [rootT, childT 1 false 5 1, childT 2 true 0 0],
     capacity := 3, rollouts := 1 }, 1, 1⟩

@[reducible] def resB : SearchResults ℕ :=
  { rolloutDistribution := [0, 1], newNode := 2, newNodeIdx := 2, rollouts := 1,
    winRate := 1/2 }

@[reducible] def stB : SState ℕ Bool :=
  ⟨{ rootState := some 0, nodes := [rootT, childT 1 false 0 0, childT 2 true 5 1],
     capacity := 3, rollouts := 1 }, 1, 1⟩

theorem searchFull_twoGame_t0 :
    searchFull twoGame zeroPrims flagsW (fun _ => 0) (fun _ => 0) (fun _ => 0) 2 3 0
      = .ok (resA, stA) := by
  norm_num [searchFull, flagsW, searchLoop, sesb, selectLoop, ROOT_IDX, SearchTree.setup,
    SearchTree.withCapacity, Node.new, Node.hasChildren, SearchTree.expand, Node.addChildren,
    Node.randomChild, simulate, randomRollout, pushRandom, backprop, Node.update,
    SearchTree.setNode, SearchTree.incRollouts, SearchTree.rootRolloutDistribution,
    collectVisits, distArgmaxLast, distFold, Node.winRate, twoGame, MCTS_new_side,
    WIN_SCORE, N_INF, Node.setWinScore, List.length, List.set]

theorem searchFull_twoGame_t1 :
    searchFull twoGame zeroPrims flagsW (fun _ => 0) (fun _ => 1) (fun _ => 0) 2 3 0
      = .ok (resB, stB) := by
  norm_num [searchFull, flagsW, searchLoop, sesb, selectLoop, ROOT_IDX, SearchTree.setup,
    SearchTree.withCapacity, Node.new, Node.hasChildren, SearchTree.expand, Node.addChildren,
    Node.randomChild, simulate, randomRollout, pushRandom, backprop, Node.update,
    SearchTree.setNode, SearchTree.incRollouts, SearchTree.rootRolloutDistribution,
    collectVisits, distArgmaxLast, distFold, Node.winRate, twoGame, MCTS_new_side,
    WIN_SCORE, N_INF, Node.setWinScore, List.length, List.set]

/-- C8 (counterexample): two searches with identical seeded-rng streams
(`f`, the float stream) and identical `Behaviour` on the same root state
— differing only in the unseeded `thread_rng` draws used by
`Node::random_child` — return different `SearchResults`: the visit
vectors `[1, 0]` and `[0, 1]` and the chosen node indices `1` and `2`
disagree. -/
theorem C8_counterexample :
    searchFull twoGame zeroPrims flagsW (fun _ => 0) (fun _ => 0) (fun _ => 0) 2 3 0
      = .ok (resA, stA)
    ∧ searchFull twoGame zeroPrims flagsW (fun _ => 0) (fun _ => 1) (fun _ => 0) 2 3 0
      = .ok (resB, stB)
    ∧ resA ≠ resB := by
  refine ⟨searchFull_twoGame_t0, searchFull_twoGame_t1, ?_⟩
  intro h
  have hd := congrArg SearchResults.rolloutDistribution h
  simp only [resA, resB] at hd
  exact absurd hd (by decide)

/-- C8 (amended): the search is deterministic only once BOTH random
sources are fixed: for one fastrand stream `f`, one thread-rng draw
stream `t`, and one training-sample float stream `tq`, two `search`
calls on the same root state with the same `Behaviour` return identical
results — the thread stream `t` is a genuine input (see the C8
counterexample), and the Rust `thread_rng` it models is not covered by
the engine's seed. -/
theorem C8_determinism {G : GameI} {P : Prims} {flags : Behaviour} {f t : ℕ → ℕ}
    {tq : ℕ → ℚ} {rolloutFuel capacity : ℕ} {board : G.State}
    {r1 r2 : SearchResults G.State × SState G.State G.Move}
    (h1 : searchFull G P flags f t tq rolloutFuel capacity board = .ok r1)
    (h2 : searchFull G P flags f t tq rolloutFuel capacity board = .ok r2) :
    r1 = r2 := by
  rw [h1, Except.ok.injEq] at h2
  exact h2

theorem C8_determinism_witness :
    ((resA, stA) : SearchResults ℕ × SState ℕ Bool) = (resA, stA) :=
  C8_determinism searchFull_twoGame_t0 searchFull_twoGame_t0

/-- The single-childless-root invariant: a search that starts at a
terminal state never expands, so its arena stays one parentless,
childless node. -/
def TInv {S M : Type} (t : SearchTree S M) : Prop :=
  t.nodes.length = 1
  ∧ ∃ rn, t.nodes.get? 0 = some rn ∧ rn.nChildren = 0 ∧ rn.parent = none

theorem setup_TInv (G : GameI) (t : SearchTree G.State G.Move) (root : G.State) :
    TInv (t.setup G root) :=
  ⟨rfl, Node.new G root none G.defaultMove, rfl, rfl, rfl⟩

theorem sesb_TInv {G : GameI} {P : Prims} {flags : Behaviour} {side : ℤ} {f t : ℕ → ℕ}
    {rolloutFuel : ℕ} {root : G.State} {st st' : SState G.State G.Move}
    (hterm : G.isTerminal root = true)
    (hT : TInv st.tree)
    (hok : sesb G P flags side f t rolloutFuel root st = .ok st') : TInv st'.tree := by
  obtain ⟨hlen, rn, hrn, hch, hparn⟩ := hT
  have hrn' : st.tree.nodes.get? ROOT_IDX = some rn := hrn
  have hfalse : rn.hasChildren = false := by
    rw [Node.hasChildren, hch]
    rfl
  have hsel : selectLoop G P flags.expFactor st.tree st.tree.nodes.length ROOT_IDX root
      = .ok (ROOT_IDX, root) := by
    rw [hlen, selectLoop]
    simp only [hrn', hfalse, Bool.false_eq_true, if_false]
  rw [sesb] at hok
  simp only [hsel] at hok
  rw [if_pos hterm] at hok
  simp only [hrn', hfalse, Bool.false_eq_true, if_false] at hok
  cases hsim : simulate G P flags side f t rolloutFuel st.tree ROOT_IDX root st.fi st.ti with
  | error e => simp only [hsim] at hok; exact (Except.noConfusion hok)
  | ok res =>
    obtain ⟨q, tree2, fi2, ti2⟩ := res
    simp only [hsim] at hok
    rcases simulate_cases hsim with ⟨-, rfl⟩ | ⟨-, -, -, -, node, pIdx, pnode, hga, hpa, -, -⟩
    · cases hbp : backprop q st.tree.nodes.length st.tree ROOT_IDX with
      | error e => simp only [hbp] at hok; exact (Except.noConfusion hok)
      | ok tree3 =>
        simp only [hbp] at hok
        rw [Except.ok.injEq] at hok
        subst hok
        rw [hlen, backprop] at hbp
        simp only [hrn'] at hbp
        cases hupd : rn.update q with
        | error e => simp only [hupd] at hbp; exact (Except.noConfusion hbp)
        | ok rn' =>
          simp only [hupd] at hbp
          obtain ⟨hp', -, hc', -, -, -, -⟩ := update_ok_fields hupd
          have hpn : rn'.parent = none := by rw [hp', hparn]
          simp only [hpn] at hbp
          rw [Except.ok.injEq] at hbp
          subst hbp
          refine ⟨?_, rn', ?_, ?_, hpn⟩
          · show (st.tree.setNode ROOT_IDX rn').nodes.length = 1
            rw [setNode_length, hlen]
          · exact setNode_get?_eq hrn'
          · rw [hc', hch]
    · rw [hrn', Option.some.injEq] at hga
      subst hga
      rw [hparn] at hpa
      exact (Option.noConfusion hpa)

theorem searchLoop_TInv {G : GameI} {P : Prims} {flags : Behaviour} {side : ℤ}
    {f t : ℕ → ℕ} {rolloutFuel : ℕ} {root : G.State} {n : ℕ}
    (hterm : G.isTerminal root = true) :
    ∀ (fuel : ℕ) (st st' : SState G.State G.Move), TInv st.tree →
      searchLoop G P flags side f t rolloutFuel root n fuel st = .ok st' →
      TInv st'.tree := by
  intro fuel
  induction fuel with
  | zero =>
    intro st st' hT h
    rw [searchLoop] at h
    by_cases hn : n ≤ st.tree.rollouts
    · rw [if_pos hn, Except.ok.injEq] at h
      subst h
      exact hT
    · rw [if_neg hn] at h
      exact (Except.noConfusion h)
  | succ fuel ih =>
    intro st st' hT h
    rw [searchLoop] at h
    by_cases hn : n ≤ st.tree.rollouts
    · rw [if_pos hn, Except.ok.injEq] at h
      subst h
      exact hT
    · rw [if_neg hn] at h
      cases hs : sesb G P flags side f t rolloutFuel root st with
      | error e => rw [hs] at h; exact (Except.noConfusion h)
      | ok st1 =>
        rw [hs] at h
        have hT1 := sesb_TInv hterm hT hs
        exact ih { st1 with tree := st1.tree.incRollouts } st' hT1 h

/-- C6 (amended): a rollout-limited inference-mode (`training = false`)
search from a terminal root state never returns a `SearchResults` value:
the root is never expanded, so the rollout distribution is empty and the
`max_by_key(..).unwrap()` move choice aborts (when no earlier abort —
e.g. the immediate-loss `expect` on the parentless root — fires
first). -/
theorem C6_terminal_root_panics {G : GameI} {P : Prims} {flags : Behaviour}
    {f t : ℕ → ℕ} {tq : ℕ → ℚ} {rolloutFuel capacity : ℕ} {board : G.State} {n : ℕ}
    (hlimit : flags.limit = .rollouts n) (htrain : flags.training = false)
    (hterm : G.isTerminal board = true) :
    ∀ out, searchFull G P flags f t tq rolloutFuel capacity board ≠ .ok out := by
  intro out hok
  rw [searchFull] at hok
  simp only [hlimit] at hok
  cases hloop : searchLoop G P flags MCTS_new_side f t rolloutFuel board n n
      ⟨(SearchTree.withCapacity G.State G.Move capacity).setup G board, 0, 0⟩ with
  | error e => simp only [hloop] at hok; exact (Except.noConfusion hok)
  | ok stL =>
    simp only [hloop] at hok
    obtain ⟨hlenL, rnL, hrnL, hchL, -⟩ := searchLoop_TInv hterm n
      ⟨(SearchTree.withCapacity G.State G.Move capacity).setup G board, 0, 0⟩ stL
      (setup_TInv G _ board) hloop
    have hrnL' : stL.tree.nodes.get? ROOT_IDX = some rnL := hrnL
    have hdist : stL.tree.rootRolloutDistribution = .ok [] := by
      rw [SearchTree.rootRolloutDistribution]
      simp only [hrnL']
      rw [hchL]
      rfl
    simp only [hdist, hrnL'] at hok
    by_cases hassert : stL.tree.rollouts ≠ n * flags.rootParallelismCount
    · rw [if_pos hassert] at hok
      exact (Except.noConfusion hok)
    · rw [if_neg hassert] at hok
      simp only [htrain, Bool.false_eq_true, if_false, distArgmaxLast] at hok
      exact (Except.noConfusion hok)

/-- C6 (counterexample): on the terminal-root game `unitGame` a
one-rollout inference search aborts (`.error .panicked` — the
`max_by_key` unwrap on the empty root distribution) instead of returning
the `SearchResults` with `win_rate = (evaluate(root)+1)/2` that the
claim promises. -/
theorem C6_counterexample :
    searchFull unitGame zeroPrims flagsW (fun _ => 0) (fun _ => 0) (fun _ => 0) 2 1 ()
      = .error .panicked
    ∧ unitGame.isTerminal () = true
    ∧ ¬∃ out, searchFull unitGame zeroPrims flagsW (fun _ => 0) (fun _ => 0) (fun _ => 0)
        2 1 () = .ok out := by
  have h : searchFull unitGame zeroPrims flagsW (fun _ => 0) (fun _ => 0) (fun _ => 0) 2 1 ()
      = .error .panicked := by
    norm_num [searchFull, flagsW, searchLoop, sesb, selectLoop, ROOT_IDX, SearchTree.setup,
      SearchTree.withCapacity, Node.new, Node.hasChildren, SearchTree.expand,
      Node.addChildren, Node.randomChild, simulate, randomRollout, pushRandom, backprop,
      Node.update, SearchTree.setNode, SearchTree.incRollouts,
      SearchTree.rootRolloutDistribution, collectVisits, distArgmaxLast, distFold,
      Node.winRate, unitGame, MCTS_new_side, WIN_SCORE, N_INF, Node.setWinScore,
      List.length, List.set]
  refine ⟨h, rfl, ?_⟩
  rintro ⟨out, hout⟩
  rw [h] at hout
  exact (Except.noConfusion hout)

theorem C6_terminal_root_panics_witness :
    flagsW.limit = .rollouts 1 ∧ flagsW.training = false ∧ unitGame.isTerminal () = true
    ∧ searchFull unitGame zeroPrims flagsW (fun _ => 0) (fun _ => 0) (fun _ => 0) 2 1 ()
        ≠ .ok ({ rolloutDistribution := [], newNode := (), newNodeIdx := 0, rollouts := 0,
                 winRate := 0 },
               ⟨SearchTree.withCapacity Unit Unit 0, 0, 0⟩) :=
  ⟨rfl, rfl, rfl,
    @C6_terminal_root_panics unitGame zeroPrims flagsW (fun _ => 0) (fun _ => 0) (fun _ => 0)
      2 1 () 1 rfl rfl rfl
      ({ rolloutDistribution := [], newNode := (), newNodeIdx := 0, rollouts := 0,
         winRate := 0 },
       ⟨SearchTree.withCapacity Unit Unit 0, 0, 0⟩)⟩

end IridiumOxide
